import Mathlib

/-!
Verification of the morse-code repository's partition/skew-partition
combinatorics against its specification.

The development shallowly embeds the Python source:
- `src/main.py` (bump-path row selection, `row_col_to_skew_partition`,
  `kBoundary`, `is_symmetric`, enumeration helpers),
- `src/k_combinat_for_sage/all.py` (raising-operator algebra, Schur
  straightening, Hall-Littlewood vertex operators, k-irreducible
  partition lists),
- `src/src/partition.py` (partition geometry predicates).

Partitions are lists of naturals; machine integers are `Nat`/`Int`.
Python runtime failures (`ValueError`, `IndexError`) are modelled with
`Option`/`Except`.  Functions whose Python source loops on a `while True`
take an explicit fuel argument.
-/

namespace MorseCode

/-- A list is weakly decreasing: `is_weakly_decreasing` in `src/main.py`,
`all(li[i] >= li[i+1] for i in range(len(li)-1))`. -/
def is_weakly_decreasing (l : List ℕ) : Prop :=
  ∀ i < l.length - 1, l.getD (i + 1) 0 ≤ l.getD i 0

instance (l : List ℕ) : Decidable (is_weakly_decreasing l) :=
  inferInstanceAs (Decidable (∀ i < l.length - 1, l.getD (i + 1) 0 ≤ l.getD i 0))

/-- A (normalized) sage partition: weakly decreasing positive parts. -/
def IsPartitionList (l : List ℕ) : Prop := is_weakly_decreasing l ∧ ∀ x ∈ l, 0 < x

instance (l : List ℕ) : Decidable (IsPartitionList l) :=
  inferInstanceAs (Decidable (is_weakly_decreasing l ∧ ∀ x ∈ l, 0 < x))

/-- A sage `SkewPartition` value: the ordered pair (outer, inner). -/
structure SkewPart where
  outer : List ℕ
  inner : List ℕ
deriving DecidableEq, Repr

/-- The inner partition, padded with zeros: row `r` of the skew shape
occupies columns `innerLen r ≤ c < outer[r]`. -/
def SkewPart.innerLen (sp : SkewPart) (r : ℕ) : ℕ := sp.inner.getD r 0

/-- Validity of a `SkewPart`: outer and inner are partitions and inner is
contained cellwise in outer (sage `SkewPartitions()` membership). -/
def SkewPart.Valid (sp : SkewPart) : Prop :=
  IsPartitionList sp.outer ∧ IsPartitionList sp.inner ∧
    sp.inner.length ≤ sp.outer.length ∧
    ∀ r < sp.outer.length, sp.innerLen r ≤ sp.outer.getD r 0

instance (sp : SkewPart) : Decidable sp.Valid :=
  inferInstanceAs (Decidable (IsPartitionList sp.outer ∧ IsPartitionList sp.inner ∧
    sp.inner.length ≤ sp.outer.length ∧
    ∀ r < sp.outer.length, sp.innerLen r ≤ sp.outer.getD r 0))

/-- Modelled from the spec: the cell finder `left(sp, row)` of §4.3 (its
definition is not under `src/`; only `src/test_main.py` calls it):
the leftmost column occupied by `row` in the skew shape, i.e. the padded
inner length, or none if the row is empty in the skew shape. -/
def left (sp : SkewPart) (row : ℕ) : Option ℕ :=
  if sp.innerLen row < sp.outer.getD row 0 then some (sp.innerLen row) else none

/-- Modelled from the spec: the cell finder `top(sp, col)` of §4.3 (its
definition is not under `src/`; only `src/test_main.py` calls it): the
topmost row whose skew shape occupies column `col` — in the French
convention used by the source, the largest such row index — or none. -/
def top (sp : SkewPart) (col : ℕ) : Option ℕ :=
  (((List.range sp.outer.length).filter
    (fun r => sp.innerLen r ≤ col ∧ col < sp.outer.getD r 0))).max?

/-- The Python loop `while row3 in blocked_rows: row3 += 1`: the first
index `≥ r` that is not in `blocked`.  The fuel `|blocked| + 1` always
suffices, mirroring the terminating Python loop. -/
def skipBlocked (blocked : List ℕ) : ℕ → ℕ → ℕ
  | 0, r => r
  | fuel + 1, r => if r ∈ blocked then skipBlocked blocked fuel (r + 1) else r

/-- `bump_path_piece` exactly as written inside
`skew_partition_to_selected_rows` in `src/main.py` (lines 251-265): the
walk moves from the start row's leftmost column `col2` to the topmost
occupant `row3` of that column (the source takes `cell_under3[0]`
unchanged), skips blocked rows upward, and signals the end of the path
when `row3` exceeds the last row index.  `some none` is the source's
`(None, True)`, `some (some r)` is `(r, False)`, and `none` marks the
runtime failure when a cell finder returns no cell. -/
def bump_path_piece (sp : SkewPart) (start_row_index : ℕ) (blocked_rows : List ℕ) :
    Option (Option ℕ) :=
  match left sp start_row_index with
  | none => none
  | some col2 =>
    match top sp col2 with
    | none => none
    | some r0 =>
      let row3 := skipBlocked blocked_rows (blocked_rows.length + 1) r0
      if row3 > sp.outer.length - 1 then some none else some (some row3)

/-- The body of `bump_path` in `src/main.py` (lines 266-275): repeat
`bump_path_piece`, accumulating visited rows, with explicit fuel for the
source's `while True` (a runtime failure also stops the walk). -/
def bump_path_go (sp : SkewPart) (blocked_rows : List ℕ) :
    ℕ → ℕ → List ℕ → List ℕ
  | 0, _, acc => acc
  | fuel + 1, r, acc =>
    match bump_path_piece sp r blocked_rows with
    | none => acc
    | some none => acc
    | some (some r3) => bump_path_go sp blocked_rows fuel r3 (acc ++ [r3])

/-- `bump_path` from `src/main.py`: the accumulated set starts at
`{row_index}` and each piece is seeded with the caller's blocked set. -/
def bump_path (sp : SkewPart) (row_index : ℕ) (blocked_rows : List ℕ) (fuel : ℕ) :
    List ℕ :=
  bump_path_go sp blocked_rows fuel row_index [row_index]

/-- One iteration of the row loop of `skew_partition_to_selected_rows` in
`src/main.py` (lines 278-280): run `bump_path` for the row (the source has
no membership guard) and union the walk into the blocked set. -/
def blocked_step (sp : SkewPart) (fuel : ℕ) (blocked : List ℕ) (r : ℕ) : List ℕ :=
  blocked ++ (bump_path sp r blocked fuel).filter (fun x => x ∉ blocked)

/-- The global blocked set built by the row loop of
`skew_partition_to_selected_rows` in `src/main.py` (lines 277-280): every
row index runs `bump_path` seeded with the current blocked set, and the
result is unioned in. -/
def selected_rows_blocked (sp : SkewPart) (fuel : ℕ) : List ℕ :=
  (List.range sp.outer.length).foldl (blocked_step sp fuel) []

/-- `skew_partition_to_selected_rows` exactly as in `src/main.py`
(lines 248-284): the sorted difference of all row indices and the global
blocked set.  The fuel feeds the source's unbounded `while True` walks. -/
def skew_partition_to_selected_rows (sp : SkewPart) (fuel : ℕ) : List ℕ :=
  (List.range sp.outer.length).filter (fun r => r ∉ selected_rows_blocked sp fuel)

/-- In the source's row loop, every row index starts a `bump_path` (there
is no membership guard before the call), so the rows that started a bump
path are all rows of the shape. -/
def selected_rows_starters (sp : SkewPart) : List ℕ := List.range sp.outer.length

/-- Modelled from the spec: the bump-path step of §4.3 as its concrete
cases (§8) and `src/test_main.py` force it — the cell-finder helpers are
not under `src/`, and the walk continues from the row just above the
topmost occupant `top(sp, col2)` of the start row's leftmost column
(`row3 = top(sp, col2) + 1` before skipping blocked rows), which is what
the asserted values `bump_path([[3,2,1],[1]], 0) = {0,2}` and
`selected_rows([[6,5,3,2,2,1],[2,2]]) = [0,1,2,5]` require.  `none`
signals the end of the path. -/
def bump_path_piece_spec (sp : SkewPart) (start_row_index : ℕ)
    (blocked_rows : List ℕ) : Option ℕ :=
  match left sp start_row_index with
  | none => none
  | some col2 =>
    match top sp col2 with
    | none => none
    | some r0 =>
      let row3 := skipBlocked blocked_rows (blocked_rows.length + 1) (r0 + 1)
      if row3 > sp.outer.length - 1 then none else some row3

/-- Modelled from the spec: the walk loop of `bump_path` (§4.3), each
piece seeded with the caller's blocked set, accumulating visited rows. -/
def bump_path_spec_go (sp : SkewPart) (blocked_rows : List ℕ) :
    ℕ → ℕ → List ℕ → List ℕ
  | 0, _, acc => acc
  | fuel + 1, r, acc =>
    match bump_path_piece_spec sp r blocked_rows with
    | none => acc
    | some r3 => bump_path_spec_go sp blocked_rows fuel r3 (acc ++ [r3])

/-- Modelled from the spec: `bump_path(sp, startRow, blockedRows)` of
§4.3; the result always includes the start row.  The fuel
`outer.length + 1` covers every terminating walk on the catty-connected
shapes the algorithm is specified for. -/
def bump_path_spec (sp : SkewPart) (row_index : ℕ) (blocked_rows : List ℕ) :
    List ℕ :=
  bump_path_spec_go sp blocked_rows (sp.outer.length + 1) row_index [row_index]

/-- Modelled from the spec: one step of the `selected_rows` row loop of
§4.3 — a row already in the global blocked set is skipped; otherwise it
starts a bump path and the walk's rows are unioned into the blocked set.
The state is (selected rows, global blocked rows). -/
def selected_rows_spec_step (sp : SkewPart) (st : List ℕ × List ℕ) (r : ℕ) :
    List ℕ × List ℕ :=
  if r ∈ st.2 then st
  else
    (st.1 ++ [r],
      st.2 ++ (bump_path_spec sp r st.2).filter (fun x => x ∉ st.2))

/-- Modelled from the spec: the final (selected, blocked) state of the
§4.3 row loop, processing rows top to bottom. -/
def selected_rows_spec_state (sp : SkewPart) : List ℕ × List ℕ :=
  (List.range sp.outer.length).foldl (selected_rows_spec_step sp) ([], [])

/-- Modelled from the spec: `selected_rows(sp)` of §4.3 — the rows that
were not blocked when first visited, i.e. exactly the rows that started
a bump path.  This variant reproduces every expected value asserted in
`src/test_main.py`. -/
def skew_partition_to_selected_rows_spec (sp : SkewPart) : List ℕ :=
  (selected_rows_spec_state sp).1

/-- Python list read `l[i]` with an `Int` index: negative indices wrap
from the end, out-of-range reads are `none` (an `IndexError`). -/
def pyGet (l : List ℕ) (i : ℤ) : Option ℕ :=
  if 0 ≤ i then l.get? i.toNat
  else if 0 ≤ i + l.length then l.get? (i + l.length).toNat else none

/-- The inner loop of `is_symmetric` (`src/src/partition.py` lines 99-103
and `src/main.py` lines 297-301): over the column indices `ks`, check
`l[k] == v`, answering `some false` at the first mismatch and `none` at
the first out-of-range read (Python `IndexError`). -/
def is_symmetric_row_check (l : List ℕ) (v : ℕ) : List ℕ → Option Bool
  | [] => some true
  | k :: ks =>
    match l.get? k with
    | none => none
    | some x => if x ≠ v then some false else is_symmetric_row_check l v ks

/-- The outer loop of `is_symmetric` over `j in range(0, len(l))`: for
each `j` the checked column range is `range(l[-j], l[-j-1])` (note
`l[-0]` is `l[0]`), with expected column length `len(l) - j`. -/
def is_symmetric_go (l : List ℕ) : List ℕ → Option Bool
  | [] => some true
  | j :: js =>
    match pyGet l (-(j : ℤ)), pyGet l (-(j : ℤ) - 1) with
    | some a, some b =>
      match is_symmetric_row_check l (l.length - j) (List.range' a (b - a)) with
      | none => none
      | some false => some false
      | some true => is_symmetric_go l js
    | _, _ => none

/-- `is_symmetric` from `src/src/partition.py` (lines 94-103; the copy in
`src/main.py` lines 291-301 is identical): `some b` is a returned boolean,
`none` a Python `IndexError`. -/
def is_symmetric (l : List ℕ) : Option Bool :=
  is_symmetric_go l (List.range l.length)

/-- The conjugate (transpose) of a partition, as computed by the sage
collaborator: column `j` has length `#{i : l[i] > j}`. -/
def conjugate (l : List ℕ) : List ℕ :=
  (List.range (l.headD 0)).map (fun j => l.countP (fun x => j < x))

/-- The column length `#{i : l[i] > j}` of column `j` of a partition. -/
def colLen (l : List ℕ) (j : ℕ) : ℕ := l.countP (fun x => j < x)

/-- The hook length of cell `(i, j)` of a partition: arm plus leg plus
one, `(l[i] - j - 1) + (colLen l j - i - 1) + 1` (spec glossary; sage
`Partition.hook_lengths` is the external collaborator the source calls). -/
def hook_length (l : List ℕ) (i j : ℕ) : ℕ :=
  (l.getD i 0 - j) + (colLen l j - (i + 1))

/-- Row `i` of the k-interior, as computed in `kBoundary.__init__` of
`src/main.py` (lines 104-107): the number of hook lengths exceeding `k`
in that row of the hook-length tableau. -/
def k_interior_row (l : List ℕ) (k i : ℕ) : ℕ :=
  (List.range (l.getD i 0)).countP (fun j => k < hook_length l i j)

/-- Strip trailing zeros, as sage partition normalization does when the
inner row counts are passed to the `SkewPartition` constructor. -/
def stripZeros (l : List ℕ) : List ℕ :=
  (l.reverse.dropWhile (fun x => x = 0)).reverse

/-- `kBoundary` from `src/main.py` (lines 83-109): the skew partition
whose outer shape is `l` and whose inner row lengths count the hook
lengths exceeding `k`. -/
def kBoundary (l : List ℕ) (k : ℕ) : SkewPart :=
  ⟨l, stripZeros ((List.range l.length).map (k_interior_row l k))⟩

/-- `number_of_noninversions` from `straighten` in
`src/k_combinat_for_sage/all.py` (lines 249-256): the number of index
pairs `i < j` with `lis[i] < lis[j]`, counted row by row as in the
source's double loop. -/
def number_of_noninversions : List ℤ → ℕ
  | [] => 0
  | x :: xs => xs.countP (fun y => x < y) + number_of_noninversions xs

/-- `rho = list(range(len(gamma) - 1, -1, -1))` from `straighten`:
the staircase `[n-1, n-2, ..., 0]`. -/
def straighten_rho (n : ℕ) : List ℤ :=
  (List.range n).reverse.map Int.ofNat

/-- `combined = [g + r for g, r in zip(gamma, rho)]` from `straighten`. -/
def straighten_combined (gamma : List ℤ) : List ℤ :=
  List.zipWith (fun g r => g + r) gamma (straighten_rho gamma.length)

/-- Python `reversed(sorted(lis))`: the entries in weakly decreasing
order. -/
def sort_desc (l : List ℤ) : List ℤ :=
  (List.insertionSort (fun a b => a ≤ b) l).reverse

/-- `new_gamma = [sc - r for sc, r in zip(sort_combined, rho)]` from
`straighten`. -/
def straighten_index (gamma : List ℤ) : List ℤ :=
  List.zipWith (fun sc r => sc - r) (sort_desc (straighten_combined gamma))
    (straighten_rho gamma.length)

/-- `straighten(s, gamma)` from `src/k_combinat_for_sage/all.py`
(lines 229-265).  The result `sign * s(new_gamma)` is represented as
`some (sign, new_gamma)`; the zero element of the basis module is
`none`. -/
def straighten (gamma : List ℤ) : Option (ℤ × List ℤ) :=
  let combined := straighten_combined gamma
  if combined.Nodup ∧ ∀ e ∈ combined, 0 ≤ e then
    some ((-1) ^ number_of_noninversions combined, straighten_index gamma)
  else none

/-- Weak decrease for integer lists (validity of a straightened index). -/
def is_weakly_decreasing_int (l : List ℤ) : Prop :=
  ∀ i < l.length - 1, l.getD (i + 1) 0 ≤ l.getD i 0

instance (l : List ℤ) : Decidable (is_weakly_decreasing_int l) :=
  inferInstanceAs (Decidable (∀ i < l.length - 1, l.getD (i + 1) 0 ≤ l.getD i 0))

/-- The argument normalization of
`HallLittlewoodVertexOperator.__init__` in `src/k_combinat_for_sage/all.py`
(lines 285-292): a nonnegative integer `k` becomes the one-element
composition `[k]`, a list is kept, a negative integer is a `ValueError`
(`none`). -/
def hlvo_normalize : Sum ℤ (List ℤ) → Option (List ℤ)
  | Sum.inl k => if 0 ≤ k then some [k] else none
  | Sum.inr l => some l

/-- The body of `HallLittlewoodVertexOperator.__call__` (lines 297-302):
`for part in reversed(gamma): input_ = input_.hl_creation_operator([part])`.
The single-part creation operator `hl_creation_operator` belongs to the
external sage symmetric-function basis and is abstracted as `create`. -/
def hlvo_call {X : Type} (create : ℤ → X → X) (gamma : List ℤ) (x : X) : X :=
  gamma.reverse.foldl (fun acc part => create part acc) x

/-- `HallLittlewoodVertexOperator`: normalize the composition, then apply
the chain of creation operators. -/
def HallLittlewoodVertexOperator {X : Type} (create : ℤ → X → X)
    (composition : Sum ℤ (List ℤ)) (x : X) : Option X :=
  (hlvo_normalize composition).map (fun gamma => hlvo_call create gamma x)

/-- `compositional_hall_littlewood_Qp` from `src/k_combinat_for_sage/all.py`
(lines 305-321): the vertex-operator chain applied to the basis identity
`one`. -/
def compositional_hall_littlewood_Qp {X : Type} (create : ℤ → X → X)
    (one : X) (gamma : List ℤ) : X :=
  hlvo_call create gamma one

/-- One pass of the `i`-loop of `get_k_irreducible_partition_lists`
(`src/k_combinat_for_sage/all.py` lines 25-41; the copy in `src/main.py`
lines 217-233 is identical): to every partition so far, append
`num_rows ∈ {0, ..., i}` copies of the part `k - i`. -/
def gkip_step (k : ℕ) (ptns : List (List ℕ)) (i : ℕ) : List (List ℕ) :=
  ptns.flatMap (fun ptn =>
    (List.range (i + 1)).map (fun num_rows => ptn ++ List.replicate num_rows (k - i)))

/-- `get_k_irreducible_partition_lists(k)`: fold the `i`-loop over
`range(1, k)`, starting from the singleton list holding the empty
partition. -/
def get_k_irreducible_partition_lists (k : ℕ) : List (List ℕ) :=
  (List.range' 1 (k - 1)).foldl (gkip_step k) [[]]

/-- A raising-operator basis index: a finite integer sequence
(`SequenceSpace` membership in `src/k_combinat_for_sage/all.py`). -/
abbrev ROAIndex : Type := List ℤ

/-- `index_mul` from `RaisingOperatorAlgebra.Element._mul_`
(`src/k_combinat_for_sage/all.py` lines 175-179): zero-pad the shorter
index to the longer length and add elementwise. -/
def index_mul (index1 index2 : ROAIndex) : ROAIndex :=
  let max_len := max index1.length index2.length
  let i1 := index1 ++ List.replicate (max_len - index1.length) 0
  let i2 := index2 ++ List.replicate (max_len - index2.length) 0
  List.zipWith (fun a b => a + b) i1 i2

/-- An element of the `RaisingOperatorAlgebra`: the list of
(basis index, coefficient) terms that sage's free-module `sum`
normalizes.  The coefficient ring `R` abstracts the source's default
`QQ['t']`; two elements are equal in the algebra iff their coefficient
functions (`coeffOf`) agree. -/
abbrev ROAElt (R : Type) : Type := List (ROAIndex × R)

/-- `_mul_` (lines 174-190): the double loop multiplying every term of
`self` with every term of `other`, adding indices with `index_mul` and
multiplying coefficients. -/
def ROA_mul {R : Type} [CommRing R] (x y : ROAElt R) : ROAElt R :=
  x.flatMap (fun p1 => y.map (fun p2 => (index_mul p1.1 p2.1, p1.2 * p2.2)))

/-- The coefficient of basis index `n` in an element — the normalized
free-module view produced by the source's `ROA.sum(out_list)`. -/
def coeffOf {R : Type} [CommRing R] (x : ROAElt R) (n : ROAIndex) : R :=
  (x.map (fun p => if p.1 = n then p.2 else 0)).sum

/-- The basis generator `R(a)`. -/
def ROA_gen {R : Type} [CommRing R] (a : ROAIndex) : ROAElt R := [(a, 1)]

/-- The multiplicative identity `R(())` (`one_basis` returns the empty
tuple, lines 156-159). -/
def ROA_one {R : Type} [CommRing R] : ROAElt R := [([], 1)]

/-- `prod` from `indexed_root_ideal_to_catalan_function` (lines 339-340):
`reduce(R.Element._mul_, iterable, R.one())`, a left fold of the algebra
multiplication starting at the identity. -/
def ROA_prod {R : Type} [CommRing R] (l : List (ROAElt R)) : ROAElt R :=
  l.foldl ROA_mul ROA_one

/-- The right fold of the algebra multiplication (proof helper). -/
def ROA_prodr {R : Type} [CommRing R] (l : List (ROAElt R)) : ROAElt R :=
  l.foldr ROA_mul ROA_one

/-- `ij_to_seq` from `indexed_root_ideal_to_catalan_function`
(lines 341-346): the length `max(i,j)+1` sequence with `1` at position
`i` and `-1` at position `j` (the `j` write happens second and wins when
`i = j`). -/
def ij_to_seq (ij : ℕ × ℕ) : ROAIndex :=
  (List.range (max ij.1 ij.2 + 1)).map
    (fun p => if p = ij.2 then -1 else if p = ij.1 then 1 else 0)

/-- One factor `1 - t*R(seq)` of the catalan-function operator
(line 351). -/
def catalan_factor {R : Type} [CommRing R] (t : R) (seq : ROAIndex) : ROAElt R :=
  [([], 1), (seq, -t)]

/-- The operator `op = prod([1 - t*R(seq) for seq in ri_complement_seq])`
built in `indexed_root_ideal_to_catalan_function` (line 351), for a given
enumeration `pairs` of the complement of the root ideal. -/
def catalan_op {R : Type} [CommRing R] (t : R) (pairs : List (ℕ × ℕ)) : ROAElt R :=
  ROA_prod (pairs.map (fun ij => catalan_factor t (ij_to_seq ij)))

/-- Error kinds of the embedded Python: `invalidShape` for the two
explicit `ValueError`s of `row_col_to_skew_partition` (`src/main.py`
lines 66 and 71; the spec's `InvalidShapeError`), `other` for every
other runtime failure — the `SkewPartition` constructor rejecting a
non-partition or non-contained shape, or an `IndexError` in the column
update loop. -/
inductive RCErr where
  | invalidShape
  | other
deriving DecidableEq, Repr

/-- The loop state of `row_col_to_skew_partition`: the `outer` and
`inner` lists under construction, `current_cs`, and `row_index`. -/
structure RCState where
  outer : List ℕ
  inner : List ℤ
  current_cs : List ℕ
  row_index : ℕ
deriving DecidableEq, Repr

/-- Python `current_cs[c] += 1` with an `Int` index: a negative index
wraps once from the end; an index still out of range raises `IndexError`
(`none`). -/
def pyIncr (l : List ℕ) (c : ℤ) : Option (List ℕ) :=
  let j : ℤ := if c < 0 then c + l.length else c
  if 0 ≤ j ∧ j < l.length then
    some (l.set j.toNat (l.getD j.toNat 0 + 1))
  else none

/-- `for c in range(lo, lo + len): current_cs[c] += 1`
(`src/main.py` lines 76-77), with Python index semantics. -/
def pyIncrRange (lo : ℤ) : ℕ → List ℕ → Option (List ℕ)
  | 0, l => some l
  | n + 1, l =>
    match pyIncr l lo with
    | none => none
    | some l2 => pyIncrRange (lo + 1) n l2

/-- The slide loop `while num_rows_to_slide > 0` of
`row_col_to_skew_partition` (`src/main.py` lines 69-79) at column number
`col_num`, sliding `n` rows: append `col_num` to outer and
`col_num - rs[row_index]` to inner, bump the covered columns, advance the
row index.  Exhausting the rows is the source's second `ValueError`.
The updated range has Python length `col_num - (col_num - rs[row]) =
rs[row]`. -/
def rcSlide (rs : List ℕ) (col_num : ℕ) : ℕ → RCState → Except RCErr RCState
  | 0, st => Except.ok st
  | n + 1, st =>
    if st.row_index ≥ rs.length then Except.error RCErr.invalidShape
    else
      match pyIncrRange ((col_num : ℤ) - (rs.getD st.row_index 0 : ℤ))
          (rs.getD st.row_index 0) st.current_cs with
      | none => Except.error RCErr.other
      | some cs2 =>
        rcSlide rs col_num n
          ⟨st.outer ++ [col_num],
           st.inner ++ [(col_num : ℤ) - (rs.getD st.row_index 0 : ℤ)],
           cs2, st.row_index + 1⟩

/-- The column loop of `row_col_to_skew_partition` (`src/main.py`
lines 62-79), processing column numbers `k, k-1, ..., 1` (the source
iterates `reversed(cs)` with `col_num = len(cs) - col_coindex`):
`num_rows_to_slide = cs[col_num-1] - current_cs[col_num-1]`; a negative
value is the source's first `ValueError`. -/
def rcCols (rs cs : List ℕ) : ℕ → RCState → Except RCErr RCState
  | 0, st => Except.ok st
  | k + 1, st =>
    if cs.getD k 0 < st.current_cs.getD k 0 then Except.error RCErr.invalidShape
    else
      match rcSlide rs (k + 1) (cs.getD k 0 - st.current_cs.getD k 0) st with
      | Except.error e => Except.error e
      | Except.ok st2 => rcCols rs cs k st2

/-- The final `SkewPartition([outer, inner])` constructor call
(`src/main.py` line 80): sage normalizes both lists through
`_Partitions` (rejecting negative entries and non-weakly-decreasing
lists, stripping trailing zeros) and requires cellwise containment; any
rejection is a `ValueError` distinct from the two explicit raises. -/
def mkSkewPartition (outer : List ℕ) (inner : List ℤ) : Except RCErr SkewPart :=
  if (∀ e ∈ inner, 0 ≤ e) ∧ is_weakly_decreasing outer ∧
      is_weakly_decreasing_int inner then
    if (stripZeros (inner.map Int.toNat)).length ≤ (stripZeros outer).length ∧
        ∀ r < (stripZeros outer).length,
          (stripZeros (inner.map Int.toNat)).getD r 0 ≤ (stripZeros outer).getD r 0 then
      Except.ok ⟨stripZeros outer, stripZeros (inner.map Int.toNat)⟩
    else Except.error RCErr.other
  else Except.error RCErr.other

/-- `row_col_to_skew_partition(rs, cs)` from `src/main.py`
(lines 57-80). -/
def row_col_to_skew_partition (rs cs : List ℕ) : Except RCErr SkewPart :=
  match rcCols rs cs cs.length ⟨[], [], List.replicate cs.length 0, 0⟩ with
  | Except.error e => Except.error e
  | Except.ok st => mkSkewPartition st.outer st.inner

/-- sage `SkewPartition.row_lengths()`: `outer[i] - inner[i]` with the
inner padded by zeros. -/
def row_lengths (sp : SkewPart) : List ℕ :=
  (List.range sp.outer.length).map (fun i => sp.outer.getD i 0 - sp.innerLen i)

/-- sage `SkewPartition.column_lengths()`: the row lengths of the
conjugate pair, i.e. the columnwise differences of column lengths over
the `outer[0]` columns. -/
def column_lengths (sp : SkewPart) : List ℕ :=
  (List.range (sp.outer.headD 0)).map
    (fun j => colLen sp.outer j - colLen sp.inner j)

/-- Modelled from the spec: the external sage enumerator `Partitions(n)`
consumed by `n_to_number_of_linked_partition_self_pairs` — all weakly
decreasing positive lists summing to `n`, here enumerated by largest
first part.  `partitionLists fuel n maxp` lists the partitions of `n`
with parts at most `maxp`; the structural `fuel` argument never runs out
when `fuel ≥ n`, as in every use below. -/
def partitionLists : (fuel : ℕ) → (n : ℕ) → (maxp : ℕ) → List (List ℕ)
  | _, 0, _ => [[]]
  | 0, _ + 1, _ => []
  | fuel + 1, n + 1, maxp =>
    ((List.range' 1 (min (n + 1) maxp)).reverse).flatMap
      (fun f => (partitionLists fuel (n + 1 - f) f).map (fun rest => f :: rest))

/-- All partitions of `n`. -/
def partitionsOf (n : ℕ) : List (List ℕ) := partitionLists n n n

/-- `n_to_number_of_linked_partition_self_pairs(n)` from `src/main.py`
(lines 235-246; the copy in `src/k_combinat_for_sage/all.py` lines 47-58
is identical): the bare `except` swallows every error kind, so a
candidate is counted exactly when the call returns normally. -/
def n_to_number_of_linked_partition_self_pairs (n : ℕ) : ℕ :=
  (partitionsOf n).foldl
    (fun count p =>
      match row_col_to_skew_partition p p with
      | Except.error _ => count
      | Except.ok _ => count + 1) 0

/-- Whether `row_col_to_skew_partition(p, p)` returns normally. -/
def rcSelfOk (p : List ℕ) : Bool :=
  match row_col_to_skew_partition p p with
  | Except.ok _ => true
  | Except.error _ => false

/-- The behavior claim C9 describes, for comparison with the code:
exclude a candidate only on `InvalidShapeError` and let every other
error kind propagate out of the enumeration. -/
def n_to_number_linked_claimed (n : ℕ) : Except RCErr ℕ :=
  (partitionsOf n).foldl
    (fun acc p =>
      match acc with
      | Except.error e => Except.error e
      | Except.ok count =>
        match row_col_to_skew_partition p p with
        | Except.ok _ => Except.ok (count + 1)
        | Except.error RCErr.invalidShape => Except.ok count
        | Except.error RCErr.other => Except.error RCErr.other)
    (Except.ok 0)

/-- Proof-specification of `current_cs` after the first `R` rows have
slid: column `j` is covered by the rows among `0, ..., R-1` whose skew
shape occupies it. -/
def curOfRows (sp : SkewPart) (R : ℕ) : List ℕ :=
  (List.range (sp.outer.headD 0)).map
    (fun j => (List.range R).countP
      (fun r => sp.innerLen r ≤ j ∧ j < sp.outer.getD r 0))

/-- Proof-specification of the whole loop state after the first `R` rows
have slid (each row `r` slides at column number `outer[r]`). -/
def stateOfRows (sp : SkewPart) (R : ℕ) : RCState :=
  ⟨sp.outer.take R,
   (List.range R).map (fun r => (sp.innerLen r : ℤ)),
   curOfRows sp R,
   R⟩

/-!
Lemmas about the bump-path selector.
-/

/-- The accumulator of the bump-path walk only grows. -/
theorem mem_bump_path_go (sp : SkewPart) (b : List ℕ) :
    ∀ (fuel r : ℕ) (acc : List ℕ) (x : ℕ), x ∈ acc →
      x ∈ bump_path_go sp b fuel r acc := by
  intro fuel
  induction fuel with
  | zero => intro r acc x hx; exact hx
  | succ n ih =>
    intro r acc x hx
    simp only [bump_path_go]
    cases bump_path_piece sp r b with
    | none => exact hx
    | some o =>
      cases o with
      | none => exact hx
      | some r3 => exact ih r3 (acc ++ [r3]) x (List.mem_append_left _ hx)

/-- A bump path always contains its start row. -/
theorem self_mem_bump_path (sp : SkewPart) (r : ℕ) (b : List ℕ) (fuel : ℕ) :
    r ∈ bump_path sp r b fuel :=
  mem_bump_path_go sp b fuel r [r] r (List.mem_singleton.mpr rfl)

/-- The blocked set only grows along the row loop. -/
theorem mem_foldl_blocked_step (sp : SkewPart) (fuel : ℕ) :
    ∀ (l b : List ℕ) (x : ℕ), x ∈ b → x ∈ l.foldl (blocked_step sp fuel) b := by
  intro l
  induction l with
  | nil => intro b x hx; exact hx
  | cons r t ih =>
    intro b x hx
    exact ih (blocked_step sp fuel b r) x (List.mem_append_left _ hx)

/-- Every processed row ends up in the global blocked set, because its own
bump path (which contains it) is unioned in. -/
theorem mem_blocked_of_mem (sp : SkewPart) (fuel : ℕ) :
    ∀ (l b : List ℕ) (x : ℕ), x ∈ l → x ∈ l.foldl (blocked_step sp fuel) b := by
  intro l
  induction l with
  | nil => intro b x hx; exact absurd hx (List.not_mem_nil x)
  | cons r t ih =>
    intro b x hx
    simp only [List.foldl_cons]
    rcases List.mem_cons.mp hx with h | h
    · subst h
      apply mem_foldl_blocked_step
      unfold blocked_step
      by_cases hb : x ∈ b
      · exact List.mem_append_left _ hb
      · refine List.mem_append_right _ ?_
        exact List.mem_filter.mpr ⟨self_mem_bump_path sp x b fuel, by simpa using hb⟩
    · exact ih (blocked_step sp fuel b r) x h

/-- The row loop of `src/main.py` blocks every row of the shape, so the
final set difference is always empty: `skew_partition_to_selected_rows`
as written returns `[]` on every input, whatever fuel is allotted to its
unbounded inner walks. -/
theorem selected_rows_always_empty (sp : SkewPart) (fuel : ℕ) :
    skew_partition_to_selected_rows sp fuel = [] := by
  unfold skew_partition_to_selected_rows
  apply List.filter_eq_nil_iff.mpr
  intro a ha
  have : a ∈ selected_rows_blocked sp fuel :=
    mem_blocked_of_mem sp fuel (List.range sp.outer.length) [] a ha
  simpa using this

/-- C1: for the skew partition with outer shape `[6,5,3,2,2,1]` and inner
shape `[2,2]`, the spec (and `src/test_main.py`) expect
`skew_partition_to_selected_rows` to return `[0, 1, 2, 5]`.  The function
as written in `src/main.py` instead blocks every row and returns `[]`
(whatever fuel its unbounded walks receive); only the spec-modelled
variant of the algorithm — the one whose helpers live outside `src/` —
produces the asserted `[0, 1, 2, 5]`. -/
theorem selected_rows_concrete_case :
    (∀ fuel, skew_partition_to_selected_rows ⟨[6, 5, 3, 2, 2, 1], [2, 2]⟩ fuel = []) ∧
    skew_partition_to_selected_rows_spec ⟨[6, 5, 3, 2, 2, 1], [2, 2]⟩ = [0, 1, 2, 5] :=
  ⟨fun fuel => selected_rows_always_empty _ fuel, by decide⟩

/-- C7 (amended): for every skew partition and fuel, the selected rows are
a subset of the row indices of the outer shape, the empty skew partition
yields the empty list, and the returned rows are exactly the rows not in
the final global blocked set; they are not the rows that started a bump
path — the code starts a bump path at every row, each walk blocks its own
start row, and the returned list is in fact always empty. -/
theorem selected_rows_shape (sp : SkewPart) (fuel : ℕ) :
    (∀ r ∈ skew_partition_to_selected_rows sp fuel, r < sp.outer.length) ∧
    (sp.outer = [] → skew_partition_to_selected_rows sp fuel = []) ∧
    skew_partition_to_selected_rows sp fuel =
      (List.range sp.outer.length).filter
        (fun r => r ∉ selected_rows_blocked sp fuel) := by
  refine ⟨?_, fun _ => selected_rows_always_empty sp fuel, rfl⟩
  intro r hr
  have hr' : r ∈ List.range sp.outer.length :=
    List.mem_of_mem_filter hr
  exact List.mem_range.mp hr'

/-- Witness for the amended C7 at the empty skew partition. -/
theorem selected_rows_shape_witness :
    skew_partition_to_selected_rows ⟨[], []⟩ 1 = [] :=
  (selected_rows_shape ⟨[], []⟩ 1).2.1 rfl

/-- Stripping trailing zeros from a list of positive entries changes
nothing. -/
theorem stripZeros_of_pos (l : List ℕ) (h : ∀ x ∈ l, 0 < x) :
    stripZeros l = l := by
  unfold stripZeros
  have hd : l.reverse.dropWhile (fun x => x = 0) = l.reverse := by
    cases hr : l.reverse with
    | nil => rfl
    | cons a t =>
      have ha : a ∈ l := by
        have : a ∈ l.reverse := by rw [hr]; exact List.mem_cons_self a t
        simpa using this
      have ha' : ¬(a = 0) := Nat.pos_iff_ne_zero.mp (h a ha)
      simp [List.dropWhile_cons, ha']
  rw [hd, List.reverse_reverse]

/-- Stripping trailing zeros from an all-zero list yields the empty
list. -/
theorem stripZeros_of_zero (l : List ℕ) (h : ∀ x ∈ l, x = 0) :
    stripZeros l = [] := by
  unfold stripZeros
  have hd : l.reverse.dropWhile (fun x => x = 0) = [] := by
    apply List.dropWhile_eq_nil_iff.mpr
    intro x hx
    simpa using h x (by simpa using hx)
  simp [hd]

/-- Reading every position of a list back via `getD` reproduces it. -/
theorem map_range_getD (l : List ℕ) :
    (List.range l.length).map (fun i => l.getD i 0) = l := by
  apply List.ext_getElem
  · simp
  · intro i h1 h2
    simp [List.getD_eq_getElem, h2]

/-- Consecutive reads of a weakly decreasing list never increase (reads
past the end give the default `0`). -/
theorem getD_succ_le (l : List ℕ) (hd : is_weakly_decreasing l) (i : ℕ) :
    l.getD (i + 1) 0 ≤ l.getD i 0 := by
  by_cases h : i + 1 < l.length
  · exact hd i (by omega)
  · rw [List.getD_eq_default _ _ (by omega)]
    exact Nat.zero_le _

/-- In a weakly decreasing list, every entry is at most the head (reads
past the end give the default `0`). -/
theorem getD_le_headD (l : List ℕ) (hd : is_weakly_decreasing l) (i : ℕ) :
    l.getD i 0 ≤ l.headD 0 := by
  have h0 : l.headD 0 = l.getD 0 0 := by cases l <;> rfl
  rw [h0]
  induction i with
  | zero => exact le_refl _
  | succ n ih => exact le_trans (getD_succ_le l hd n) ih

/-- Sorting descending is a permutation. -/
theorem sort_desc_perm (l : List ℤ) : (sort_desc l).Perm l :=
  (List.reverse_perm _).trans (List.perm_insertionSort _ l)

/-- On a duplicate-free list, sorting descending is strictly
decreasing. -/
theorem sort_desc_pairwise (l : List ℤ) (h : l.Nodup) :
    List.Pairwise (fun a b => b < a) (sort_desc l) := by
  have hs : List.Sorted (fun a b => a ≤ b) (List.insertionSort (fun a b => a ≤ b) l) :=
    List.sorted_insertionSort _ l
  have hp : List.Pairwise (fun a b => b ≤ a) (sort_desc l) := by
    unfold sort_desc
    exact (List.pairwise_reverse).mpr hs
  have hn : (sort_desc l).Nodup := ((sort_desc_perm l).nodup_iff).mpr h
  exact (hp.and hn).imp (fun hab => lt_of_le_of_ne hab.1 (Ne.symm hab.2))

/-- Along a strictly decreasing integer list, the entry `k` places later
is at least `k` smaller. -/
theorem strict_desc_getD (d : List ℤ) (h : List.Pairwise (fun a b => b < a) d) :
    ∀ i k, i + k < d.length → d.getD (i + k) 0 + (k : ℤ) ≤ d.getD i 0 := by
  intro i k
  induction k generalizing i with
  | zero => intro _; simp
  | succ m ih =>
    intro hik
    have hi : i < d.length := by omega
    have hi1 : i + 1 < d.length := by omega
    have h1 : d.getD (i + 1) 0 + 1 ≤ d.getD i 0 := by
      have hpw := List.pairwise_iff_getElem.mp h i (i + 1) hi hi1 (by omega)
      rw [List.getD_eq_getElem _ _ hi, List.getD_eq_getElem _ _ hi1]
      omega
    have h2 := ih (i + 1) (by omega)
    have heq : i + 1 + m = i + (m + 1) := by omega
    rw [heq] at h2
    push_cast at h2 ⊢
    omega

/-- The length of the staircase `rho`. -/
theorem straighten_rho_length (n : ℕ) : (straighten_rho n).length = n := by
  unfold straighten_rho
  rw [List.length_map, List.length_reverse, List.length_range]

/-- The staircase `rho` read at position `i < n`. -/
theorem straighten_rho_getElem (n i : ℕ) (h : i < (straighten_rho n).length) :
    (straighten_rho n)[i] = (n : ℤ) - 1 - i := by
  have hn : i < n := by rw [straighten_rho_length] at h; exact h
  simp only [straighten_rho, List.getElem_map, List.getElem_reverse, List.getElem_range,
    List.length_range, Int.ofNat_eq_coe]
  omega

/-- The length of `combined`. -/
theorem straighten_combined_length (gamma : List ℤ) :
    (straighten_combined gamma).length = gamma.length := by
  unfold straighten_combined
  simp [straighten_rho_length]

/-- The straightened index is a valid partition shape: weakly decreasing
with nonnegative entries, whenever `combined` has distinct nonnegative
entries. -/
theorem straighten_index_valid (gamma : List ℤ)
    (h1 : (straighten_combined gamma).Nodup)
    (h2 : ∀ e ∈ straighten_combined gamma, 0 ≤ e) :
    is_weakly_decreasing_int (straighten_index gamma) ∧
    ∀ e ∈ straighten_index gamma, 0 ≤ e := by
  have hd := sort_desc_pairwise _ h1
  have hdl : (sort_desc (straighten_combined gamma)).length = gamma.length := by
    rw [(sort_desc_perm _).length_eq, straighten_combined_length]
  have hdnn : ∀ e ∈ sort_desc (straighten_combined gamma), 0 ≤ e := by
    intro e he
    exact h2 e ((sort_desc_perm _).mem_iff.mp he)
  have hil : (straighten_index gamma).length = gamma.length := by
    unfold straighten_index
    rw [List.length_zipWith, hdl, straighten_rho_length]
    simp
  have hig : ∀ i, i < gamma.length →
      (straighten_index gamma).getD i 0 =
        (sort_desc (straighten_combined gamma)).getD i 0 - ((gamma.length : ℤ) - 1 - i) := by
    intro i hi
    have hb : i < (List.zipWith (fun sc r => sc - r)
        (sort_desc (straighten_combined gamma)) (straighten_rho gamma.length)).length := by
      rw [List.length_zipWith, hdl, straighten_rho_length, Nat.min_self]
      exact hi
    unfold straighten_index
    rw [List.getD_eq_getElem _ _ hb, List.getElem_zipWith,
      straighten_rho_getElem gamma.length i (by rw [straighten_rho_length]; omega),
      List.getD_eq_getElem _ _
        (show i < (sort_desc (straighten_combined gamma)).length by rw [hdl]; omega)]
  have hlow : ∀ i, i < gamma.length →
      ((gamma.length : ℤ) - 1 - i) ≤ (sort_desc (straighten_combined gamma)).getD i 0 := by
    intro i hi
    have hstep := strict_desc_getD _ hd i (gamma.length - 1 - i) (by rw [hdl]; omega)
    have hlen1 : i + (gamma.length - 1 - i) < (sort_desc (straighten_combined gamma)).length := by
      rw [hdl]; omega
    have hlast : 0 ≤ (sort_desc (straighten_combined gamma)).getD
        (i + (gamma.length - 1 - i)) 0 := by
      apply hdnn
      rw [List.getD_eq_getElem _ _ hlen1]
      exact List.getElem_mem _
    omega
  constructor
  · intro i hi
    rw [hil] at hi
    rw [hig i (by omega), hig (i + 1) (by omega)]
    have hcons := strict_desc_getD _ hd i 1 (by rw [hdl]; omega)
    push_cast at hcons
    omega
  · intro e he
    rcases List.mem_iff_getElem.mp he with ⟨i, hilt, rfl⟩
    have hilt2 : i < gamma.length := by rw [hil] at hilt; exact hilt
    have hg : (straighten_index gamma)[i] = (straighten_index gamma).getD i 0 :=
      (List.getD_eq_getElem _ _ hilt).symm
    rw [hg, hig i hilt2]
    have := hlow i hilt2
    omega

/-- C3: for every integer sequence `gamma`, `straighten` returns the zero
element exactly when `combined = gamma + rho` has a negative or repeated
entry; otherwise it returns `(-1)^c` times the basis element indexed by
`sort_desc(combined) - rho`, where `c` counts the pairs `i < j` with
`combined[i] < combined[j]`, and that index is a valid partition shape
(weakly decreasing, nonnegative entries). -/
theorem straighten_characterization (gamma : List ℤ) :
    (((∃ e ∈ straighten_combined gamma, e < 0) ∨
        ¬ (straighten_combined gamma).Nodup) → straighten gamma = none) ∧
    ((straighten_combined gamma).Nodup →
      (∀ e ∈ straighten_combined gamma, 0 ≤ e) →
      straighten gamma =
          some ((-1) ^ number_of_noninversions (straighten_combined gamma),
            straighten_index gamma) ∧
        is_weakly_decreasing_int (straighten_index gamma) ∧
        ∀ e ∈ straighten_index gamma, 0 ≤ e) := by
  constructor
  · intro h
    unfold straighten
    rw [if_neg]
    rintro ⟨hn, hnn⟩
    rcases h with ⟨e, he, hlt⟩ | hnd
    · exact absurd (hnn e he) (not_le.mpr hlt)
    · exact hnd hn
  · intro h1 h2
    refine ⟨?_, straighten_index_valid gamma h1 h2⟩
    unfold straighten
    rw [if_pos ⟨h1, h2⟩]

/-- Witness for C3 at `gamma = [2, 1, 3]`: `combined = [4, 2, 3]` has
distinct nonnegative entries, one non-inversion, and the result is
`-s[2, 2, 2]` as in the source's docstring. -/
theorem straighten_characterization_witness :
    (straighten_combined [2, 1, 3]).Nodup ∧
    (∀ e ∈ straighten_combined [2, 1, 3], (0 : ℤ) ≤ e) ∧
    straighten [2, 1, 3] = some (-1, [2, 2, 2]) := by
  have h := (straighten_characterization [2, 1, 3]).2 (by decide) (by decide)
  exact ⟨by decide, by decide, h.1.trans (by decide)⟩

/-- C5 (amended): for every partition `l` and bound `k`, the k-boundary
has outer shape `l`; its inner shape is `l` itself when `k = 0`; and its
inner shape is empty whenever `k` is at least the largest hook length
`l[0] + len(l) - 1` (the claim's threshold `k ≥ max(l)` is too small: the
hook of the corner cell exceeds the largest part as soon as the partition
has a second row). -/
theorem k_boundary_outer_inner (l : List ℕ) (k : ℕ) (hl : IsPartitionList l) :
    (kBoundary l k).outer = l ∧
    (k = 0 → (kBoundary l k).inner = l) ∧
    (l.headD 0 + l.length ≤ k + 1 → (kBoundary l k).inner = []) := by
  refine ⟨rfl, ?_, ?_⟩
  · rintro rfl
    show stripZeros _ = l
    have hrow : ∀ i ∈ List.range l.length,
        k_interior_row l 0 i = l.getD i 0 := by
      intro i _
      unfold k_interior_row
      have hall : ∀ j ∈ List.range (l.getD i 0),
          (fun j => decide (0 < hook_length l i j)) j = true := by
        intro j hj
        have hj' : j < l.getD i 0 := List.mem_range.mp hj
        have hpos : 0 < hook_length l i j := by
          unfold hook_length
          have : 0 < l.getD i 0 - j := Nat.sub_pos_of_lt hj'
          omega
        simpa using hpos
      rw [List.countP_eq_length.mpr hall, List.length_range]
    rw [List.map_congr_left hrow, map_range_getD]
    exact stripZeros_of_pos l hl.2
  · intro hk
    show stripZeros _ = []
    apply stripZeros_of_zero
    intro x hx
    rcases List.mem_map.mp hx with ⟨i, hi, rfl⟩
    unfold k_interior_row
    rw [List.countP_eq_zero]
    intro j hj
    have h1 : l.getD i 0 - j ≤ l.headD 0 :=
      le_trans (Nat.sub_le _ _) (getD_le_headD l hl.1 i)
    have h2 : colLen l j ≤ l.length := List.countP_le_length _
    have hlen : 1 ≤ l.length := by
      have := List.mem_range.mp hi
      omega
    have hle : hook_length l i j ≤ k := by
      unfold hook_length
      omega
    simpa using Nat.not_lt.mpr hle

/-- Witness for the amended C5 at the partition `[3, 1]` with `k = 4`
(the largest hook length is `3 + 2 - 1 = 4`). -/
theorem k_boundary_outer_inner_witness :
    IsPartitionList [3, 1] ∧
    ((kBoundary [3, 1] 4).outer = [3, 1] ∧
      (4 = 0 → (kBoundary [3, 1] 4).inner = [3, 1]) ∧
      ([3, 1].headD 0 + [3, 1].length ≤ 4 + 1 → (kBoundary [3, 1] 4).inner = [])) :=
  ⟨by decide, k_boundary_outer_inner [3, 1] 4 (by decide)⟩

/-- C5 counterexample: for `l = [2, 2]` and `k = 2` we have
`k ≥ max(l) = 2`, yet the k-boundary's inner partition is `[1]`, not the
empty partition — the corner cell has hook length `3 > 2`. -/
theorem k_boundary_max_part_cex :
    (∀ x ∈ ([2, 2] : List ℕ), x ≤ 2) ∧
    (kBoundary [2, 2] 2).inner = [1] ∧ ([1] : List ℕ) ≠ [] := by decide

/-- C6: `is_symmetric` does not compute self-conjugacy: on the partition
`[1, 1]` (size 2, so within the claim's brute-force range) it returns
`True` although the conjugate is `[2] ≠ [1, 1]` — for `j = 0` the checked
range `range(l[0], l[-1])` is empty, and no other iteration inspects the
columns past the last part.  On `[3, 1]` it raises `IndexError` (`none`)
instead of returning a boolean. -/
theorem is_symmetric_wrong :
    is_symmetric [1, 1] = some true ∧ conjugate [1, 1] = [2] ∧
    ([2] : List ℕ) ≠ [1, 1] ∧ is_symmetric [3, 1] = none := by decide

/-- C7 counterexample: on the one-row skew partition `[[1],[]]` the code
returns `[]`, while the rows that started a bump path are `[0]` (every
row starts one); so the returned rows are not the rows that started a
bump path, refuting the claim's final equivalence. -/
theorem selected_rows_not_starters :
    skew_partition_to_selected_rows ⟨[1], []⟩ 5 = [] ∧
    selected_rows_starters ⟨[1], []⟩ = [0] ∧
    ([] : List ℕ) ≠ [0] := by
  refine ⟨?_, by decide, by decide⟩
  exact selected_rows_always_empty ⟨[1], []⟩ 5

/-- C8: the vertex-operator chain applies the creation operator to the
parts in reverse order, rightmost part first, so `H(gamma)(x)` is the
right fold `create g1 (create g2 (... (create gm x)))`; and a single
nonnegative integer `k` is treated as the one-element composition `[k]`,
so `H(k)(x) = create k x`. -/
theorem hlvo_applies_in_reverse_order {X : Type} (create : ℤ → X → X)
    (gamma : List ℤ) (x : X) (k : ℕ) :
    hlvo_call create gamma x = gamma.foldr create x ∧
    HallLittlewoodVertexOperator create (Sum.inr gamma) x =
      some (gamma.foldr create x) ∧
    HallLittlewoodVertexOperator create (Sum.inl (k : ℤ)) x =
      some (create (k : ℤ) x) := by
  have h1 : hlvo_call create gamma x = gamma.foldr create x := by
    unfold hlvo_call
    rw [List.foldl_reverse]
  refine ⟨h1, ?_, ?_⟩
  · unfold HallLittlewoodVertexOperator hlvo_normalize
    simp [h1]
  · unfold HallLittlewoodVertexOperator hlvo_normalize
    simp [Int.natCast_nonneg k, hlvo_call]

/-- A constant map sums to length times the constant. -/
theorem sum_map_const_nat {α : Type} (l : List α) (c : ℕ) :
    (l.map (fun _ => c)).sum = l.length * c := by
  induction l with
  | nil => simp
  | cons a t ih => simp [ih, Nat.succ_mul, Nat.add_comm]

/-- Each pass of the `i`-loop multiplies the number of partition lists by
`i + 1`. -/
theorem gkip_step_length (k : ℕ) (ptns : List (List ℕ)) (i : ℕ) :
    (gkip_step k ptns i).length = ptns.length * (i + 1) := by
  unfold gkip_step
  rw [List.length_flatMap]
  simp only [Function.comp_def]
  have hc : ∀ ptn ∈ ptns,
      ((List.range (i + 1)).map
        (fun num_rows => ptn ++ List.replicate num_rows (k - i))).length = i + 1 := by
    intro ptn _
    rw [List.length_map, List.length_range]
  rw [List.map_congr_left hc, sum_map_const_nat]

/-- After the passes `i = 1, ..., m` the accumulator holds `(m + 1)!`
partition lists. -/
theorem gkip_fold_length (k : ℕ) :
    ∀ m, ((List.range' 1 m).foldl (gkip_step k) [[]]).length = (m + 1).factorial := by
  intro m
  induction m with
  | zero => simp [Nat.factorial]
  | succ m ih =>
    rw [List.range'_concat, List.foldl_append, List.foldl_cons, List.foldl_nil,
      gkip_step_length, ih]
    have hfac : (m + 1 + 1).factorial = (m + 1).factorial * (m + 2) := by
      rw [Nat.factorial_succ]
      ring
    rw [hfac]
    ring

/-- Monotone reads along a weakly decreasing list. -/
theorem getD_add_le (l : List ℕ) (h : is_weakly_decreasing l) :
    ∀ d i, l.getD (i + d) 0 ≤ l.getD i 0 := by
  intro d
  induction d with
  | zero => intro i; exact le_refl _
  | succ m ih =>
    intro i
    exact le_trans (getD_succ_le l h (i + m)) (ih i)

/-- The index-based weak-decrease predicate agrees with pairwise
decrease. -/
theorem is_weakly_decreasing_iff_pairwise (l : List ℕ) :
    is_weakly_decreasing l ↔ List.Pairwise (fun a b => b ≤ a) l := by
  constructor
  · intro h
    apply List.pairwise_iff_getElem.mpr
    intro i j hi hj hij
    have hle := getD_add_le l h (j - i) i
    rw [show i + (j - i) = j by omega] at hle
    rw [List.getD_eq_getElem _ _ hj, List.getD_eq_getElem _ _ hi] at hle
    exact hle
  · intro h i hi
    have hi1 : i + 1 < l.length := by omega
    have hi0 : i < l.length := by omega
    have := List.pairwise_iff_getElem.mp h i (i + 1) hi0 hi1 (by omega)
    rw [List.getD_eq_getElem _ _ hi1, List.getD_eq_getElem _ _ hi0]
    exact this

/-- A constant list is weakly decreasing (pairwise form). -/
theorem pairwise_le_replicate (n c : ℕ) :
    List.Pairwise (fun a b => b ≤ a) (List.replicate n c) := by
  induction n with
  | zero => simp
  | succ m ih =>
    rw [List.replicate_succ]
    refine List.Pairwise.cons ?_ ih
    intro b hb
    rw [List.eq_of_mem_replicate hb]

/-- Appending copies of a part no larger than every existing part keeps a
list weakly decreasing. -/
theorem wd_append_replicate (l : List ℕ) (n c : ℕ)
    (h : is_weakly_decreasing l) (hc : ∀ x ∈ l, c ≤ x) :
    is_weakly_decreasing (l ++ List.replicate n c) := by
  rw [is_weakly_decreasing_iff_pairwise] at h ⊢
  rw [List.pairwise_append]
  refine ⟨h, pairwise_le_replicate n c, ?_⟩
  intro a ha b hb
  rw [List.eq_of_mem_replicate hb]
  exact hc a ha

/-- Invariant of the `i`-loop: after the passes `i = 1, ..., m`
(for `m ≤ k - 1`), every accumulated list is weakly decreasing with
entries in `[k - m, k)` and carries at most `k - v` copies of each value
`v`. -/
theorem gkip_invariant (k : ℕ) :
    ∀ m, m ≤ k - 1 → ∀ l ∈ (List.range' 1 m).foldl (gkip_step k) [[]],
      is_weakly_decreasing l ∧ (∀ x ∈ l, k - m ≤ x ∧ x < k) ∧
      (∀ v, l.count v ≤ k - v) := by
  intro m
  induction m with
  | zero =>
    intro _ l hl
    have : l = [] := by simpa using hl
    subst this
    refine ⟨?_, by simp, by simp⟩
    intro i hi
    simp only [List.length_nil] at hi
    omega
  | succ m ih =>
    intro hm l hl
    rw [List.range'_concat, List.foldl_append, List.foldl_cons, List.foldl_nil] at hl
    unfold gkip_step at hl
    rcases List.mem_flatMap.mp hl with ⟨ptn, hptn, hmem⟩
    rcases List.mem_map.mp hmem with ⟨num, hnum, rfl⟩
    have hnum' : num ≤ 1 + m := by
      have := List.mem_range.mp hnum
      omega
    have hidx : 1 + 1 * m = m + 1 := by omega
    simp only [hidx]
    have hih := ih (by omega) ptn hptn
    have hkm : m + 1 ≤ k - 1 := hm
    have hc : k - (m + 1) < k - m := by omega
    have hcpos : 0 < k - (m + 1) := by omega
    refine ⟨?_, ?_, ?_⟩
    · apply wd_append_replicate _ _ _ hih.1
      intro x hx
      have := (hih.2.1 x hx).1
      omega
    · intro x hx
      rcases List.mem_append.mp hx with hx | hx
      · have := hih.2.1 x hx
        constructor
        · omega
        · exact this.2
      · rw [List.eq_of_mem_replicate hx]
        constructor
        · exact le_refl _
        · omega
    · intro v
      rw [List.count_append, List.count_replicate]
      by_cases hv : v = k - (m + 1)
      · have hnot : v ∉ ptn := by
          intro hmm
          have := (hih.2.1 v hmm).1
          omega
        rw [List.count_eq_zero.mpr hnot]
        have hcond : (k - (m + 1) == v) = true := by
          rw [hv]
          exact beq_self_eq_true _
        rw [if_pos hcond]
        omega
      · have hcond : ¬ ((k - (m + 1) == v) = true) := by
          simp only [beq_iff_eq]
          omega
        rw [if_neg hcond]
        have := hih.2.2 v
        omega

/-- C10: `get_k_irreducible_partition_lists(k)` returns exactly `k!`
lists, and every returned list is a weakly decreasing sequence of
positive parts smaller than `k`, with at most `k - i` copies of each part
`i` for `1 ≤ i < k` — that is, a k-irreducible partition. -/
theorem get_k_irreducible_partition_lists_spec (k : ℕ) :
    (get_k_irreducible_partition_lists k).length = k.factorial ∧
    ∀ l ∈ get_k_irreducible_partition_lists k,
      is_weakly_decreasing l ∧ (∀ x ∈ l, 0 < x ∧ x < k) ∧
      ∀ i, 1 ≤ i → i < k → l.count i ≤ k - i := by
  constructor
  · unfold get_k_irreducible_partition_lists
    rw [gkip_fold_length]
    cases k with
    | zero => rfl
    | succ n => rfl
  · intro l hl
    have h := gkip_invariant k (k - 1) (le_refl _) l hl
    refine ⟨h.1, ?_, fun i _ _ => h.2.2 i⟩
    intro x hx
    have hb := h.2.1 x hx
    constructor
    · omega
    · exact hb.2

/-- Witness for C10 at `k = 3`: six lists, one of which is `[2, 1]`. -/
theorem get_k_irreducible_partition_lists_spec_witness :
    (get_k_irreducible_partition_lists 3).length = 6 ∧
    [2, 1] ∈ get_k_irreducible_partition_lists 3 ∧
    is_weakly_decreasing [2, 1] ∧ (∀ x ∈ ([2, 1] : List ℕ), 0 < x ∧ x < 3) := by
  have h := get_k_irreducible_partition_lists_spec 3
  exact ⟨h.1.trans (by decide), by decide,
    (h.2 [2, 1] (by decide)).1, (h.2 [2, 1] (by decide)).2.1⟩

/-- Two integer lists with equal lengths and equal default reads are
equal. -/
theorem eq_of_getD (l1 l2 : List ℤ) (hlen : l1.length = l2.length)
    (h : ∀ i, l1.getD i 0 = l2.getD i 0) : l1 = l2 := by
  apply List.ext_getElem hlen
  intro i h1 h2
  have := h i
  rwa [List.getD_eq_getElem _ _ h1, List.getD_eq_getElem _ _ h2] at this

/-- The padded index product has the length of the longer factor. -/
theorem index_mul_length (a b : ROAIndex) :
    (index_mul a b).length = max a.length b.length := by
  unfold index_mul
  rw [List.length_zipWith, List.length_append, List.length_append,
    List.length_replicate, List.length_replicate]
  omega

/-- Reading a zero-padded list is reading the original (with default 0). -/
theorem pad_getD (a : List ℤ) (m i : ℕ) :
    (a ++ List.replicate (m - a.length) 0).getD i 0 = a.getD i 0 := by
  by_cases hi : i < a.length
  · rw [List.getD_eq_getElem _ _ (by rw [List.length_append]; omega),
      List.getElem_append_left hi, List.getD_eq_getElem _ _ hi]
  · have ha : a.getD i 0 = 0 := List.getD_eq_default _ _ (by omega)
    rw [ha]
    by_cases hm : i < (a ++ List.replicate (m - a.length) 0).length
    · rw [List.getD_eq_getElem _ _ hm]
      rw [List.getElem_append_right (by omega : a.length ≤ i)]
      simp
    · exact List.getD_eq_default _ _ (by omega)

/-- The index product reads as the elementwise sum of the default
reads. -/
theorem index_mul_getD (a b : ROAIndex) (i : ℕ) :
    (index_mul a b).getD i 0 = a.getD i 0 + b.getD i 0 := by
  by_cases hi : i < max a.length b.length
  · have hlen : i < (index_mul a b).length := by rw [index_mul_length]; exact hi
    unfold index_mul
    rw [List.getD_eq_getElem _ _ (by
      rw [List.length_zipWith, List.length_append, List.length_append,
        List.length_replicate, List.length_replicate]
      omega)]
    rw [List.getElem_zipWith]
    rw [← List.getD_eq_getElem _ 0, ← List.getD_eq_getElem _ 0, pad_getD, pad_getD]
  · rw [List.getD_eq_default _ _ (by rw [index_mul_length]; omega),
      List.getD_eq_default _ _ (by omega), List.getD_eq_default _ _ (by omega)]
    rfl

/-- Index multiplication is commutative. -/
theorem index_mul_comm (a b : ROAIndex) : index_mul a b = index_mul b a := by
  apply eq_of_getD
  · rw [index_mul_length, index_mul_length, Nat.max_comm]
  · intro i
    rw [index_mul_getD, index_mul_getD]
    ring

/-- Index multiplication is associative. -/
theorem index_mul_assoc (a b c : ROAIndex) :
    index_mul (index_mul a b) c = index_mul a (index_mul b c) := by
  apply eq_of_getD
  · rw [index_mul_length, index_mul_length, index_mul_length, index_mul_length,
      Nat.max_assoc]
  · intro i
    rw [index_mul_getD, index_mul_getD, index_mul_getD, index_mul_getD]
    ring

/-- The empty index is a left unit for index multiplication. -/
theorem index_mul_nil_left (a : ROAIndex) : index_mul [] a = a := by
  apply eq_of_getD
  · rw [index_mul_length]
    simp
  · intro i
    rw [index_mul_getD]
    simp

/-- The empty index is a right unit for index multiplication. -/
theorem index_mul_nil_right (a : ROAIndex) : index_mul a [] = a := by
  rw [index_mul_comm, index_mul_nil_left]

/-- Sums of pointwise sums split. -/
theorem sum_map_add {R α : Type} [CommRing R] (l : List α) (f g : α → R) :
    (l.map (fun a => f a + g a)).sum = (l.map f).sum + (l.map g).sum := by
  induction l with
  | nil => simp
  | cons a t ih =>
    simp only [List.map_cons, List.sum_cons, ih]
    ring

/-- A zero map sums to zero. -/
theorem sum_map_zero {R α : Type} [CommRing R] (l : List α) :
    (l.map (fun _ => (0 : R))).sum = 0 := by
  induction l with
  | nil => rfl
  | cons a t ih => simp [ih]

/-- Scalars pull out of sums. -/
theorem sum_map_mul_left {R α : Type} [CommRing R] (l : List α) (c : R) (f : α → R) :
    (l.map (fun a => c * f a)).sum = c * (l.map f).sum := by
  induction l with
  | nil => simp
  | cons a t ih =>
    simp only [List.map_cons, List.sum_cons, ih]
    ring

/-- Summing a map over a flattened list is a double sum. -/
theorem sum_map_flatMap {R α β : Type} [CommRing R] (l : List α) (g : α → List β)
    (F : β → R) :
    ((l.flatMap g).map F).sum = (l.map (fun a => ((g a).map F).sum)).sum := by
  induction l with
  | nil => rfl
  | cons a t ih =>
    rw [List.flatMap_cons, List.map_append, List.sum_append, ih, List.map_cons,
      List.sum_cons]

/-- Double sums commute. -/
theorem sum_sum_comm {R α β : Type} [CommRing R] (xs : List α) (ys : List β)
    (f : α → β → R) :
    (xs.map (fun a => (ys.map (fun b => f a b)).sum)).sum =
    (ys.map (fun b => (xs.map (fun a => f a b)).sum)).sum := by
  induction xs with
  | nil =>
    simp only [List.map_nil, List.sum_nil]
    exact (sum_map_zero ys).symm
  | cons a t ih =>
    simp only [List.map_cons, List.sum_cons, ih]
    exact (sum_map_add ys (fun b => f a b) (fun b => (t.map (fun a => f a b)).sum)).symm

/-- `coeffOf` of a term list splits over append. -/
theorem coeffOf_append {R : Type} [CommRing R] (x y : ROAElt R) (n : ROAIndex) :
    coeffOf (x ++ y) n = coeffOf x n + coeffOf y n := by
  unfold coeffOf
  rw [List.map_append, List.sum_append]

/-- The master formula: the coefficient of `n` in a product is the double
sum over term pairs whose indices multiply to `n`. -/
theorem coeffOf_mul {R : Type} [CommRing R] (x y : ROAElt R) (n : ROAIndex) :
    coeffOf (ROA_mul x y) n =
      (x.map (fun p1 => (y.map (fun p2 =>
        if index_mul p1.1 p2.1 = n then p1.2 * p2.2 else 0)).sum)).sum := by
  unfold ROA_mul coeffOf
  rw [sum_map_flatMap]
  apply congrArg List.sum
  apply List.map_congr_left
  intro p1 _
  rw [List.map_map]
  rfl

/-- Multiplying by the identity on the right changes nothing (already at
the term-list level). -/
theorem ROA_mul_one {R : Type} [CommRing R] (x : ROAElt R) :
    ROA_mul x ROA_one = x := by
  induction x with
  | nil => rfl
  | cons p t ih =>
    unfold ROA_mul ROA_one
    rw [List.flatMap_cons]
    unfold ROA_mul ROA_one at ih
    rw [ih]
    simp [index_mul_nil_right]

/-- Multiplying by the identity on the left changes nothing (already at
the term-list level). -/
theorem ROA_one_mul {R : Type} [CommRing R] (x : ROAElt R) :
    ROA_mul ROA_one x = x := by
  unfold ROA_mul ROA_one
  simp [index_mul_nil_left]
/-- Coefficientwise commutativity of the algebra multiplication. -/
theorem coeffOf_mul_comm {R : Type} [CommRing R] (x y : ROAElt R) (n : ROAIndex) :
    coeffOf (ROA_mul x y) n = coeffOf (ROA_mul y x) n := by
  rw [coeffOf_mul x y n, coeffOf_mul y x n, sum_sum_comm]
  apply congrArg List.sum
  apply List.map_congr_left
  intro p2 _
  apply congrArg List.sum
  apply List.map_congr_left
  intro p1 _
  rw [index_mul_comm, mul_comm]

/-- The support of a term list. -/
def suppF {R : Type} [CommRing R] (x : ROAElt R) : Finset ROAIndex :=
  (x.map Prod.fst).toFinset

/-- A term of a list has its index in the support. -/
theorem mem_suppF {R : Type} [CommRing R] (x : ROAElt R) (p : ROAIndex × R)
    (hp : p ∈ x) : p.1 ∈ suppF x := by
  unfold suppF
  rw [List.mem_toFinset]
  exact List.mem_map_of_mem Prod.fst hp

/-- A weighted sum over the terms of a list only depends on the
coefficient function, through any finite superset of the support. -/
theorem sum_terms_eq_sum_coeff {R : Type} [CommRing R] (x : ROAElt R)
    (h : ROAIndex → R) (S : Finset ROAIndex) (hS : ∀ p ∈ x, p.1 ∈ S) :
    (x.map (fun p => p.2 * h p.1)).sum = S.sum (fun m => coeffOf x m * h m) := by
  induction x with
  | nil =>
    simp [coeffOf]
  | cons p t ih =>
    have hco : ∀ m, coeffOf (p :: t) m = (if p.1 = m then p.2 else 0) + coeffOf t m := by
      intro m
      unfold coeffOf
      rw [List.map_cons, List.sum_cons]
    simp only [List.map_cons, List.sum_cons]
    rw [ih (fun q hq => hS q (List.mem_cons_of_mem p hq))]
    have hsplit : S.sum (fun m => coeffOf (p :: t) m * h m) =
        S.sum (fun m => (if p.1 = m then p.2 else 0) * h m) +
        S.sum (fun m => coeffOf t m * h m) := by
      rw [← Finset.sum_add_distrib]
      apply Finset.sum_congr rfl
      intro m _
      rw [hco m]
      ring
    rw [hsplit]
    have hone : S.sum (fun m => (if p.1 = m then p.2 else 0) * h m) = p.2 * h p.1 := by
      have : ∀ m, (if p.1 = m then p.2 else 0) * h m =
          if p.1 = m then p.2 * h m else 0 := by
        intro m
        by_cases hm : p.1 = m
        · rw [if_pos hm, if_pos hm]
        · rw [if_neg hm, if_neg hm, zero_mul]
      rw [Finset.sum_congr rfl (fun m _ => this m)]
      rw [Finset.sum_ite_eq S p.1 (fun m => p.2 * h m)]
      rw [if_pos (hS p (List.mem_cons_self p t))]
    rw [hone]
/-- The product coefficient through any finite superset of the left
support: it only depends on the left factor's coefficient function. -/
theorem coeffOf_mul_eq_sum {R : Type} [CommRing R] (x y : ROAElt R) (n : ROAIndex)
    (S : Finset ROAIndex) (hS : ∀ p ∈ x, p.1 ∈ S) :
    coeffOf (ROA_mul x y) n =
      S.sum (fun m => coeffOf x m * (y.map (fun p2 =>
        if index_mul m p2.1 = n then p2.2 else 0)).sum) := by
  rw [coeffOf_mul]
  have hpt : ∀ p1 : ROAIndex × R,
      (y.map (fun p2 => if index_mul p1.1 p2.1 = n then p1.2 * p2.2 else 0)).sum =
      p1.2 * (y.map (fun p2 => if index_mul p1.1 p2.1 = n then p2.2 else 0)).sum := by
    intro p1
    rw [← sum_map_mul_left]
    apply congrArg List.sum
    apply List.map_congr_left
    intro p2 _
    by_cases hm : index_mul p1.1 p2.1 = n
    · rw [if_pos hm, if_pos hm]
    · rw [if_neg hm, if_neg hm, mul_zero]
  have hmap : x.map (fun p1 => (y.map (fun p2 =>
        if index_mul p1.1 p2.1 = n then p1.2 * p2.2 else 0)).sum) =
      x.map (fun p1 => p1.2 * (y.map (fun p2 =>
        if index_mul p1.1 p2.1 = n then p2.2 else 0)).sum) :=
    List.map_congr_left (fun p1 _ => hpt p1)
  rw [hmap]
  have key := sum_terms_eq_sum_coeff x
    (fun m => (y.map (fun p2 => if index_mul m p2.1 = n then p2.2 else 0)).sum) S hS
  simp only [] at key
  exact key

/-- Multiplication respects coefficientwise equality on the left. -/
theorem coeffOf_mul_congr_left {R : Type} [CommRing R] (x x' y : ROAElt R)
    (hxx : ∀ n, coeffOf x n = coeffOf x' n) (n : ROAIndex) :
    coeffOf (ROA_mul x y) n = coeffOf (ROA_mul x' y) n := by
  rw [coeffOf_mul_eq_sum x y n (suppF x ∪ suppF x')
      (fun p hp => Finset.mem_union_left _ (mem_suppF x p hp)),
    coeffOf_mul_eq_sum x' y n (suppF x ∪ suppF x')
      (fun p hp => Finset.mem_union_right _ (mem_suppF x' p hp))]
  exact Finset.sum_congr rfl (fun m _ => by rw [hxx m])

/-- Multiplication respects coefficientwise equality on the right. -/
theorem coeffOf_mul_congr_right {R : Type} [CommRing R] (x y y' : ROAElt R)
    (hyy : ∀ n, coeffOf y n = coeffOf y' n) (n : ROAIndex) :
    coeffOf (ROA_mul x y) n = coeffOf (ROA_mul x y') n := by
  calc coeffOf (ROA_mul x y) n = coeffOf (ROA_mul y x) n := coeffOf_mul_comm x y n
    _ = coeffOf (ROA_mul y' x) n := coeffOf_mul_congr_left y y' x hyy n
    _ = coeffOf (ROA_mul x y') n := coeffOf_mul_comm y' x n

/-- Coefficientwise associativity of the algebra multiplication. -/
theorem coeffOf_mul_assoc {R : Type} [CommRing R] (x y z : ROAElt R) (n : ROAIndex) :
    coeffOf (ROA_mul (ROA_mul x y) z) n = coeffOf (ROA_mul x (ROA_mul y z)) n := by
  have hL : coeffOf (ROA_mul (ROA_mul x y) z) n =
      (x.map (fun p1 => (y.map (fun p2 => (z.map (fun p3 =>
        if index_mul (index_mul p1.1 p2.1) p3.1 = n
        then p1.2 * p2.2 * p3.2 else 0)).sum)).sum)).sum := by
    rw [coeffOf_mul (ROA_mul x y) z n]
    unfold ROA_mul
    rw [sum_map_flatMap]
    apply congrArg List.sum
    apply List.map_congr_left
    intro p1 _
    rw [List.map_map]
    rfl
  have hR : coeffOf (ROA_mul x (ROA_mul y z)) n =
      (x.map (fun p1 => (y.map (fun p2 => (z.map (fun p3 =>
        if index_mul p1.1 (index_mul p2.1 p3.1) = n
        then p1.2 * (p2.2 * p3.2) else 0)).sum)).sum)).sum := by
    rw [coeffOf_mul x (ROA_mul y z) n]
    apply congrArg List.sum
    apply List.map_congr_left
    intro p1 _
    unfold ROA_mul
    rw [sum_map_flatMap]
    apply congrArg List.sum
    apply List.map_congr_left
    intro p2 _
    rw [List.map_map]
    rfl
  rw [hL, hR]
  apply congrArg List.sum
  apply List.map_congr_left
  intro p1 _
  apply congrArg List.sum
  apply List.map_congr_left
  intro p2 _
  apply congrArg List.sum
  apply List.map_congr_left
  intro p3 _
  rw [index_mul_assoc, mul_assoc]

/-- The left fold of the multiplication agrees coefficientwise with
multiplying the accumulator by the right fold. -/
theorem foldl_mul_coeff {R : Type} [CommRing R] (l : List (ROAElt R)) :
    ∀ (acc : ROAElt R) (n : ROAIndex),
      coeffOf (l.foldl ROA_mul acc) n = coeffOf (ROA_mul acc (ROA_prodr l)) n := by
  induction l with
  | nil =>
    intro acc n
    show coeffOf acc n = coeffOf (ROA_mul acc ROA_one) n
    rw [ROA_mul_one]
  | cons a t ih =>
    intro acc n
    rw [List.foldl_cons, ih (ROA_mul acc a) n]
    exact coeffOf_mul_assoc acc a (ROA_prodr t) n

/-- Permuting the factors leaves the right-fold product unchanged
coefficientwise. -/
theorem prodr_perm_coeff {R : Type} [CommRing R] (l l2 : List (ROAElt R))
    (h : l.Perm l2) :
    ∀ n, coeffOf (ROA_prodr l) n = coeffOf (ROA_prodr l2) n := by
  induction h with
  | nil => intro n; rfl
  | cons a hperm ih =>
    intro n
    exact coeffOf_mul_congr_right a _ _ ih n
  | swap a b l =>
    intro n
    show coeffOf (ROA_mul b (ROA_mul a (ROA_prodr l))) n =
      coeffOf (ROA_mul a (ROA_mul b (ROA_prodr l))) n
    calc coeffOf (ROA_mul b (ROA_mul a (ROA_prodr l))) n
        = coeffOf (ROA_mul (ROA_mul b a) (ROA_prodr l)) n :=
          (coeffOf_mul_assoc b a (ROA_prodr l) n).symm
      _ = coeffOf (ROA_mul (ROA_mul a b) (ROA_prodr l)) n :=
          coeffOf_mul_congr_left (ROA_mul b a) (ROA_mul a b) (ROA_prodr l)
            (fun m => coeffOf_mul_comm b a m) n
      _ = coeffOf (ROA_mul a (ROA_mul b (ROA_prodr l))) n :=
          coeffOf_mul_assoc a b (ROA_prodr l) n
  | trans h1 h2 ih1 ih2 =>
    intro n
    exact (ih1 n).trans (ih2 n)

/-- Permuting the factors leaves the source's left-fold product unchanged
coefficientwise. -/
theorem ROA_prod_perm_coeff {R : Type} [CommRing R] (l1 l2 : List (ROAElt R))
    (h : l1.Perm l2) (n : ROAIndex) :
    coeffOf (ROA_prod l1) n = coeffOf (ROA_prod l2) n := by
  unfold ROA_prod
  rw [foldl_mul_coeff l1 ROA_one n, foldl_mul_coeff l2 ROA_one n]
  exact coeffOf_mul_congr_right ROA_one _ _ (prodr_perm_coeff l1 l2 h) n

/-- C4: the raising-operator multiplication of basis generators is
commutative and associative, the product's index is the padded
elementwise sum, the empty-tuple generator is a two-sided identity on
every element, and the operator product built in
`indexed_root_ideal_to_catalan_function` does not depend on the
enumeration order of the complement pairs (coefficientwise, which is
equality in the free module). -/
theorem raising_operator_algebra_mul_props {R : Type} [CommRing R]
    (a b c : ROAIndex) (x : ROAElt R) (t : R)
    (pairs1 pairs2 : List (ℕ × ℕ)) (hperm : pairs1.Perm pairs2) :
    ROA_mul (ROA_gen a) (ROA_gen b) = (ROA_gen (index_mul a b) : ROAElt R) ∧
    ROA_mul (ROA_gen a) (ROA_gen b) = (ROA_mul (ROA_gen b) (ROA_gen a) : ROAElt R) ∧
    ROA_mul (ROA_mul (ROA_gen a) (ROA_gen b)) (ROA_gen c) =
      (ROA_mul (ROA_gen a) (ROA_mul (ROA_gen b) (ROA_gen c)) : ROAElt R) ∧
    ROA_mul ROA_one x = x ∧ ROA_mul x ROA_one = x ∧
    ∀ n, coeffOf (catalan_op t pairs1) n = coeffOf (catalan_op t pairs2) n := by
  have hgen : ∀ u v : ROAIndex, ROA_mul (ROA_gen u) (ROA_gen v) =
      (ROA_gen (index_mul u v) : ROAElt R) := by
    intro u v
    unfold ROA_mul ROA_gen
    simp
  refine ⟨hgen a b, ?_, ?_, ROA_one_mul x, ROA_mul_one x, ?_⟩
  · rw [hgen a b, hgen b a, index_mul_comm]
  · rw [hgen a b, hgen b c, hgen (index_mul a b) c, hgen a (index_mul b c),
      index_mul_assoc]
  · intro n
    unfold catalan_op
    exact ROA_prod_perm_coeff _ _ (hperm.map _) n

/-- Witness for C4: a concrete two-factor operator product evaluated in
both enumeration orders over `ZZ` with `t = 2`, together with the
concrete generator product `R(1,-1)·R(0,1,-1) = R(1,0,-1)` shown in the
source's docstring. -/
theorem raising_operator_algebra_mul_props_witness :
    ([(0, 1), (0, 2)] : List (ℕ × ℕ)).Perm [(0, 2), (0, 1)] ∧
    ROA_mul (ROA_gen [1, -1]) (ROA_gen [0, 1, -1]) = (ROA_gen [1, 0, -1] : ROAElt ℤ) ∧
    coeffOf (catalan_op (2 : ℤ) [(0, 1), (0, 2)]) [1, -1, 0] =
      coeffOf (catalan_op (2 : ℤ) [(0, 2), (0, 1)]) [1, -1, 0] := by
  have h := raising_operator_algebra_mul_props (R := ℤ) [1, -1] [0, 1, -1] []
    ([([1], 3)] : ROAElt ℤ) 2 [(0, 1), (0, 2)] [(0, 2), (0, 1)] (by decide)
  exact ⟨by decide, h.1.trans (by decide), h.2.2.2.2.2 [1, -1, 0]⟩

/-- Counting entries of a list equals counting positions. -/
theorem countP_eq_range_countP (l : List ℕ) (p : ℕ → Bool) :
    l.countP p = (List.range l.length).countP (fun i => p (l.getD i 0)) := by
  induction l with
  | nil => rfl
  | cons a t ih =>
    rw [List.countP_cons, List.length_cons, List.range_succ_eq_map,
      List.countP_cons, List.countP_map]
    have hcomp : ((fun i => p ((a :: t).getD i 0)) ∘ Nat.succ) = fun i => p (t.getD i 0) := by
      funext i
      simp [Function.comp_def]
    rw [hcomp, ih]
    simp

/-- In a weakly decreasing list, an entry exceeds `c` exactly when its
position is below the count of entries exceeding `c` (threshold counts
cut prefixes). -/
theorem lt_getD_iff_lt_countP (l : List ℕ) (hd : is_weakly_decreasing l)
    (c r : ℕ) (hr : r < l.length) :
    c < l.getD r 0 ↔
      r < (List.range l.length).countP (fun i => decide (c < l.getD i 0)) := by
  constructor
  · intro h
    have hall : ∀ i ∈ List.range (r + 1), decide (c < l.getD i 0) = true := by
      intro i hi
      have hir : i ≤ r := by
        have := List.mem_range.mp hi
        omega
      have hmono := getD_add_le l hd (r - i) i
      rw [show i + (r - i) = r by omega] at hmono
      simp only [decide_eq_true_eq]
      omega
    have h1 : (List.range (r + 1)).countP (fun i => decide (c < l.getD i 0)) = r + 1 := by
      rw [List.countP_eq_length.mpr hall, List.length_range]
    have h2 := List.Sublist.countP_le (fun i => decide (c < l.getD i 0))
      (List.range_sublist.mpr (by omega : r + 1 ≤ l.length))
    omega
  · intro h
    by_contra hc
    have hnot : ∀ i, r ≤ i → ¬ (c < l.getD i 0) := by
      intro i hi
      have hmono := getD_add_le l hd (i - r) r
      rw [show r + (i - r) = i by omega] at hmono
      omega
    have hsplit : List.range l.length =
        List.range r ++ (List.range (l.length - r)).map (fun i => r + i) := by
      rw [← List.range_add]
      congr 1
      omega
    have hz : ((List.range (l.length - r)).map (fun i => r + i)).countP
        (fun i => decide (c < l.getD i 0)) = 0 := by
      rw [List.countP_eq_zero]
      intro a ha
      rcases List.mem_map.mp ha with ⟨i, _, rfl⟩
      simp only [decide_eq_true_eq]
      exact hnot (r + i) (by omega)
    have hle : (List.range r).countP (fun i => decide (c < l.getD i 0)) ≤ r := by
      have := List.countP_le_length (l := List.range r)
        (p := fun i => decide (c < l.getD i 0))
      rwa [List.length_range] at this
    rw [hsplit, List.countP_append, hz] at h
    omega

/-- A count splits along a second predicate. -/
theorem countP_and_not_split {α : Type} (l : List α) (p q : α → Bool) :
    l.countP p = l.countP (fun a => p a && q a) + l.countP (fun a => p a && !q a) := by
  induction l with
  | nil => rfl
  | cons a t ih =>
    rw [List.countP_cons, List.countP_cons, List.countP_cons, ih]
    cases hp : p a <;> cases hq : q a <;> simp [hp, hq] <;> omega
/-- Two natural-number lists with equal lengths and equal default reads
are equal. -/
theorem eq_of_getD_nat (l1 l2 : List ℕ) (hlen : l1.length = l2.length)
    (h : ∀ i, l1.getD i 0 = l2.getD i 0) : l1 = l2 := by
  apply List.ext_getElem hlen
  intro i h1 h2
  have := h i
  rwa [List.getD_eq_getElem _ _ h1, List.getD_eq_getElem _ _ h2] at this

/-- Reading a zero-padded natural-number list is reading the original. -/
theorem pad_getD_nat (a : List ℕ) (m i : ℕ) :
    (a ++ List.replicate (m - a.length) 0).getD i 0 = a.getD i 0 := by
  by_cases hi : i < a.length
  · rw [List.getD_eq_getElem _ _ (by rw [List.length_append]; omega),
      List.getElem_append_left hi, List.getD_eq_getElem _ _ hi]
  · have ha : a.getD i 0 = 0 := List.getD_eq_default _ _ (by omega)
    rw [ha]
    by_cases hm : i < (a ++ List.replicate (m - a.length) 0).length
    · rw [List.getD_eq_getElem _ _ hm]
      rw [List.getElem_append_right (by omega : a.length ≤ i)]
      simp
    · exact List.getD_eq_default _ _ (by omega)

/-- Default read after a `set`. -/
theorem getD_set_nat (l : List ℕ) (i v j : ℕ) :
    (l.set i v).getD j 0 = if i = j ∧ j < l.length then v else l.getD j 0 := by
  by_cases hj : j < l.length
  · rw [List.getD_eq_getElem _ _ (by rw [List.length_set]; exact hj), List.getElem_set]
    by_cases hij : i = j
    · simp [hij, hj]
    · rw [if_neg hij, if_neg (by intro hc; exact hij hc.1),
        List.getD_eq_getElem _ _ hj]
  · rw [List.getD_eq_default _ _ (by rw [List.length_set]; omega),
      List.getD_eq_default _ _ (by omega)]
    simp [hj]

/-- The column update loop succeeds inside the bounds and adds one to
every column of the window. -/
theorem pyIncrRange_spec : ∀ (len lo : ℕ) (l : List ℕ), lo + len ≤ l.length →
    ∃ l2, pyIncrRange (lo : ℤ) len l = some l2 ∧ l2.length = l.length ∧
      ∀ j, l2.getD j 0 = l.getD j 0 + (if lo ≤ j ∧ j < lo + len then 1 else 0) := by
  intro len
  induction len with
  | zero =>
    intro lo l _
    refine ⟨l, rfl, rfl, fun j => by simp⟩
  | succ m ih =>
    intro lo l h
    have hlol : lo < l.length := by omega
    have hstep : pyIncr l (lo : ℤ) = some (l.set lo (l.getD lo 0 + 1)) := by
      unfold pyIncr
      rw [if_neg (by omega : ¬ ((lo : ℤ) < 0))]
      rw [if_pos (⟨by omega, by omega⟩ :
        (0 : ℤ) ≤ (lo : ℤ) ∧ (lo : ℤ) < (l.length : ℤ))]
      rfl
    rcases ih (lo + 1) (l.set lo (l.getD lo 0 + 1)) (by rw [List.length_set]; omega)
      with ⟨l2, heq, hlen2, hget⟩
    refine ⟨l2, ?_, by rw [hlen2, List.length_set], ?_⟩
    · show pyIncrRange (lo : ℤ) (m + 1) l = some l2
      unfold pyIncrRange
      rw [hstep]
      show pyIncrRange ((lo : ℤ) + 1) m (l.set lo (l.getD lo 0 + 1)) = some l2
      rw [show ((lo : ℤ) + 1) = ((lo + 1 : ℕ) : ℤ) by push_cast; ring]
      exact heq
    · intro j
      rw [hget j, getD_set_nat]
      by_cases hjlo : lo = j
      · subst hjlo
        rw [if_pos ⟨rfl, hlol⟩, if_neg (by omega), if_pos (by omega)]
      · rw [if_neg (by intro hcon; exact hjlo hcon.1)]
        by_cases hw : lo + 1 ≤ j ∧ j < lo + 1 + m
        · rw [if_pos hw, if_pos (by omega)]
        · rw [if_neg hw, if_neg (by omega)]

/-- Lengths of the proof-state lists. -/
theorem curOfRows_length (sp : SkewPart) (R : ℕ) :
    (curOfRows sp R).length = sp.outer.headD 0 := by
  unfold curOfRows
  rw [List.length_map, List.length_range]

/-- Reading the proof-state `current_cs`. -/
theorem curOfRows_getD (sp : SkewPart) (R j : ℕ) (hj : j < sp.outer.headD 0) :
    (curOfRows sp R).getD j 0 = (List.range R).countP
      (fun r => decide (sp.innerLen r ≤ j ∧ j < sp.outer.getD r 0)) := by
  unfold curOfRows
  rw [List.getD_eq_getElem _ _ (by rw [List.length_map, List.length_range]; omega)]
  rw [List.getElem_map, List.getElem_range]

/-- The length of the row-length list. -/
theorem row_lengths_length (sp : SkewPart) :
    (row_lengths sp).length = sp.outer.length := by
  unfold row_lengths
  rw [List.length_map, List.length_range]

/-- Reading the row-length list. -/
theorem row_lengths_getD (sp : SkewPart) (i : ℕ) (hi : i < sp.outer.length) :
    (row_lengths sp).getD i 0 = sp.outer.getD i 0 - sp.innerLen i := by
  unfold row_lengths
  rw [List.getD_eq_getElem _ _ (by rw [List.length_map, List.length_range]; omega)]
  rw [List.getElem_map, List.getElem_range]

/-- The length of the column-length list. -/
theorem column_lengths_length (sp : SkewPart) :
    (column_lengths sp).length = sp.outer.headD 0 := by
  unfold column_lengths
  rw [List.length_map, List.length_range]

/-- Reading the column-length list. -/
theorem column_lengths_getD (sp : SkewPart) (k : ℕ) (hk : k < sp.outer.headD 0) :
    (column_lengths sp).getD k 0 = colLen sp.outer k - colLen sp.inner k := by
  unfold column_lengths
  rw [List.getD_eq_getElem _ _ (by rw [List.length_map, List.length_range]; omega)]
  rw [List.getElem_map, List.getElem_range]

/-- Sliding a block of `j` rows whose outer value is `c` advances the
proof state by `j` rows. -/
theorem rcSlide_spec (sp : SkewPart) (hval : sp.Valid) :
    ∀ (c j R : ℕ), R + j ≤ sp.outer.length →
      (∀ i, R ≤ i → i < R + j → sp.outer.getD i 0 = c) →
      rcSlide (row_lengths sp) c j (stateOfRows sp R) =
        Except.ok (stateOfRows sp (R + j)) := by
  intro c j
  induction j with
  | zero =>
    intro R _ _
    rfl
  | succ m ih =>
    intro R hRj hout
    have hRn : R < sp.outer.length := by omega
    have hcR : sp.outer.getD R 0 = c := hout R (le_refl R) (by omega)
    have hinner : sp.innerLen R ≤ sp.outer.getD R 0 := hval.2.2.2 R hRn
    have hcN : c ≤ sp.outer.headD 0 := by
      rw [← hcR]
      exact getD_le_headD _ hval.1.1 R
    have hrg : (row_lengths sp).getD R 0 = sp.outer.getD R 0 - sp.innerLen R :=
      row_lengths_getD sp R hRn
    have hloZ : ((c : ℤ) - ((row_lengths sp).getD R 0 : ℤ)) = ((sp.innerLen R : ℕ) : ℤ) := by
      rw [hrg, hcR]
      push_cast [Nat.cast_sub (by omega : sp.innerLen R ≤ c)]
      ring
    rcases pyIncrRange_spec ((row_lengths sp).getD R 0) (sp.innerLen R) (curOfRows sp R)
        (by rw [curOfRows_length, hrg, hcR]; omega)
      with ⟨l2, heq, hl2len, hl2get⟩
    have hcs : l2 = curOfRows sp (R + 1) := by
      apply eq_of_getD_nat
      · rw [hl2len, curOfRows_length, curOfRows_length]
      · intro j
        by_cases hj : j < sp.outer.headD 0
        · rw [hl2get j, curOfRows_getD sp R j hj, curOfRows_getD sp (R + 1) j hj,
            List.range_succ, List.countP_append, List.countP_cons, List.countP_nil]
          simp only [decide_eq_true_eq]
          by_cases hc : sp.innerLen R ≤ j ∧ j < sp.outer.getD R 0
          · rw [if_pos (by rw [hrg]; omega), if_pos hc]
          · rw [if_neg (by rw [hrg]; omega), if_neg hc]
        · rw [hl2get j,
            if_neg (by rw [hrg]; omega),
            List.getD_eq_default _ _ (by rw [curOfRows_length]; omega),
            List.getD_eq_default _ _ (by rw [curOfRows_length]; omega)]
    show rcSlide (row_lengths sp) c (m + 1) (stateOfRows sp R) = _
    unfold rcSlide
    rw [if_neg (show ¬ ((stateOfRows sp R).row_index ≥ (row_lengths sp).length) by
      show ¬ (R ≥ (row_lengths sp).length)
      rw [row_lengths_length]
      omega)]
    have hscrut : pyIncrRange
        ((c : ℤ) - ((row_lengths sp).getD (stateOfRows sp R).row_index 0 : ℤ))
        ((row_lengths sp).getD (stateOfRows sp R).row_index 0)
        (stateOfRows sp R).current_cs = some l2 := by
      show pyIncrRange ((c : ℤ) - ((row_lengths sp).getD R 0 : ℤ))
        ((row_lengths sp).getD R 0) (curOfRows sp R) = some l2
      rw [hloZ]
      exact heq
    rw [hscrut]
    show rcSlide (row_lengths sp) c m
      ⟨(stateOfRows sp R).outer ++ [c],
       (stateOfRows sp R).inner ++
         [(c : ℤ) - ((row_lengths sp).getD (stateOfRows sp R).row_index 0 : ℤ)],
       l2, (stateOfRows sp R).row_index + 1⟩ =
      Except.ok (stateOfRows sp (R + (m + 1)))
    have hstate : (⟨(stateOfRows sp R).outer ++ [c],
        (stateOfRows sp R).inner ++
          [(c : ℤ) - ((row_lengths sp).getD (stateOfRows sp R).row_index 0 : ℤ)],
        l2, (stateOfRows sp R).row_index + 1⟩ : RCState) = stateOfRows sp (R + 1) := by
      show (⟨sp.outer.take R ++ [c],
        (List.range R).map (fun r => (sp.innerLen r : ℤ)) ++
          [(c : ℤ) - ((row_lengths sp).getD R 0 : ℤ)],
        l2, R + 1⟩ : RCState) = stateOfRows sp (R + 1)
      have houter : sp.outer.take R ++ [c] = sp.outer.take (R + 1) := by
        rw [List.take_succ, List.getElem?_eq_getElem hRn]
        have : sp.outer[R] = c := by
          rw [← List.getD_eq_getElem _ _ hRn]
          exact hcR
        rw [this]
        rfl
      have hinner2 : (List.range R).map (fun r => (sp.innerLen r : ℤ)) ++
          [(c : ℤ) - ((row_lengths sp).getD R 0 : ℤ)] =
          (List.range (R + 1)).map (fun r => (sp.innerLen r : ℤ)) := by
        rw [hloZ, List.range_succ, List.map_append]
        rfl
      rw [houter, hinner2, hcs]
      rfl
    rw [hstate]
    have hrec := ih (R + 1) (by omega) (fun i h1 h2 => hout i (by omega) (by omega))
    rw [show R + 1 + m = R + (m + 1) by omega] at hrec
    exact hrec

/-- A column count is bounded by the list length. -/
theorem colLen_le_length (l : List ℕ) (c : ℕ) : colLen l c ≤ l.length :=
  List.countP_le_length _

/-- For a weakly decreasing outer shape, row `r` reaches past column `c`
exactly when `r` lies below the column length of `c`. -/
theorem colLen_outer_iff (sp : SkewPart) (hd : is_weakly_decreasing sp.outer)
    (c r : ℕ) (hr : r < sp.outer.length) :
    c < sp.outer.getD r 0 ↔ r < colLen sp.outer c := by
  unfold colLen
  rw [countP_eq_range_countP]
  exact lt_getD_iff_lt_countP sp.outer hd c r hr

/-- The inner column count, recounted over the outer length. -/
theorem colLen_inner_pad (sp : SkewPart)
    (hlen : sp.inner.length ≤ sp.outer.length) (k : ℕ) :
    colLen sp.inner k =
      (List.range sp.outer.length).countP
        (fun i => decide (k < sp.innerLen i)) := by
  unfold colLen SkewPart.innerLen
  rw [countP_eq_range_countP]
  have hsplit : List.range sp.outer.length =
      List.range sp.inner.length ++
        (List.range (sp.outer.length - sp.inner.length)).map
          (fun i => sp.inner.length + i) := by
    rw [← List.range_add]
    congr 1
    omega
  rw [hsplit, List.countP_append]
  have hz : ((List.range (sp.outer.length - sp.inner.length)).map
      (fun i => sp.inner.length + i)).countP
      (fun i => decide (k < sp.inner.getD i 0)) = 0 := by
    rw [List.countP_eq_zero]
    intro a ha
    rcases List.mem_map.mp ha with ⟨i, _, rfl⟩
    simp only [decide_eq_true_eq]
    rw [List.getD_eq_default _ _ (by omega)]
    omega
  rw [hz]
  simp

/-- The counting facts for one column step: at column index `k` (column
number `k + 1`), the coverage of the first `colLen outer (k+1)` rows
never exceeds the target column length, the deficit is exactly the
number of rows with outer value `k + 1`, and those rows are the
contiguous block between the two column counts. -/
theorem rcCols_step_counts (sp : SkewPart) (hval : sp.Valid)
    (hne : ∀ r < sp.outer.length, sp.innerLen r < sp.outer.getD r 0)
    (k : ℕ) (hk : k < sp.outer.headD 0) :
    (curOfRows sp (colLen sp.outer (k + 1))).getD k 0 ≤
      (column_lengths sp).getD k 0 ∧
    colLen sp.outer (k + 1) +
      ((column_lengths sp).getD k 0 -
        (curOfRows sp (colLen sp.outer (k + 1))).getD k 0) =
      colLen sp.outer k ∧
    ∀ i, colLen sp.outer (k + 1) ≤ i → i < colLen sp.outer k →
      sp.outer.getD i 0 = k + 1 := by
  have hdo : is_weakly_decreasing sp.outer := hval.1.1
  have hlen : sp.inner.length ≤ sp.outer.length := hval.2.2.1
  have hA : colLen sp.outer k =
      (List.range sp.outer.length).countP
        (fun i => decide (k < sp.outer.getD i 0)) := by
    unfold colLen
    rw [countP_eq_range_countP]
  have hC : colLen sp.outer (k + 1) =
      (List.range sp.outer.length).countP
        (fun i => decide (k + 1 < sp.outer.getD i 0)) := by
    unfold colLen
    rw [countP_eq_range_countP]
  have hB : colLen sp.inner k =
      (List.range sp.outer.length).countP
        (fun i => decide (k < sp.innerLen i)) :=
    colLen_inner_pad sp hlen k
  have hsplit1 := countP_and_not_split (List.range sp.outer.length)
    (fun i => decide (k < sp.outer.getD i 0))
    (fun i => decide (k < sp.innerLen i))
  have h1a : (List.range sp.outer.length).countP
      (fun i => decide (k < sp.outer.getD i 0) &&
        decide (k < sp.innerLen i)) =
      (List.range sp.outer.length).countP
        (fun i => decide (k < sp.innerLen i)) := by
    apply List.countP_congr
    intro r hr
    have hrn : r < sp.outer.length := List.mem_range.mp hr
    have hco := hval.2.2.2 r hrn
    simp only [← Bool.decide_and, decide_eq_true_eq]
    omega
  have h1b : (List.range sp.outer.length).countP
      (fun i => decide (k < sp.outer.getD i 0) &&
        !decide (k < sp.innerLen i)) =
      (List.range sp.outer.length).countP
        (fun i => decide (sp.innerLen i ≤ k ∧ k < sp.outer.getD i 0)) := by
    apply List.countP_congr
    intro r hr
    simp only [← decide_not, ← Bool.decide_and, decide_eq_true_eq]
    omega
  have hsplit2 := countP_and_not_split (List.range sp.outer.length)
    (fun i => decide (sp.innerLen i ≤ k ∧ k < sp.outer.getD i 0))
    (fun i => decide (k + 1 < sp.outer.getD i 0))
  have h2a : (List.range sp.outer.length).countP
      (fun i => decide (sp.innerLen i ≤ k ∧ k < sp.outer.getD i 0) &&
        decide (k + 1 < sp.outer.getD i 0)) =
      (List.range sp.outer.length).countP
        (fun i => decide (sp.innerLen i ≤ k ∧ k + 1 < sp.outer.getD i 0)) := by
    apply List.countP_congr
    intro r hr
    simp only [← Bool.decide_and, decide_eq_true_eq]
    omega
  have h2b : (List.range sp.outer.length).countP
      (fun i => decide (sp.innerLen i ≤ k ∧ k < sp.outer.getD i 0) &&
        !decide (k + 1 < sp.outer.getD i 0)) =
      (List.range sp.outer.length).countP
        (fun i => decide (sp.outer.getD i 0 = k + 1)) := by
    apply List.countP_congr
    intro r hr
    have hrn : r < sp.outer.length := List.mem_range.mp hr
    have hner := hne r hrn
    simp only [← decide_not, ← Bool.decide_and, decide_eq_true_eq]
    omega
  have hsplit3 := countP_and_not_split (List.range sp.outer.length)
    (fun i => decide (k < sp.outer.getD i 0))
    (fun i => decide (k + 1 < sp.outer.getD i 0))
  have h3a : (List.range sp.outer.length).countP
      (fun i => decide (k < sp.outer.getD i 0) &&
        decide (k + 1 < sp.outer.getD i 0)) =
      (List.range sp.outer.length).countP
        (fun i => decide (k + 1 < sp.outer.getD i 0)) := by
    apply List.countP_congr
    intro r hr
    simp only [← Bool.decide_and, decide_eq_true_eq]
    omega
  have h3b : (List.range sp.outer.length).countP
      (fun i => decide (k < sp.outer.getD i 0) &&
        !decide (k + 1 < sp.outer.getD i 0)) =
      (List.range sp.outer.length).countP
        (fun i => decide (sp.outer.getD i 0 = k + 1)) := by
    apply List.countP_congr
    intro r hr
    simp only [← decide_not, ← Bool.decide_and, decide_eq_true_eq]
    omega
  have hcur : (curOfRows sp (colLen sp.outer (k + 1))).getD k 0 =
      (List.range sp.outer.length).countP
        (fun i => decide (sp.innerLen i ≤ k ∧ k + 1 < sp.outer.getD i 0)) := by
    rw [curOfRows_getD sp _ k hk]
    have hCn : colLen sp.outer (k + 1) ≤ sp.outer.length :=
      colLen_le_length _ _
    have hsplit : List.range sp.outer.length =
        List.range (colLen sp.outer (k + 1)) ++
          (List.range (sp.outer.length - colLen sp.outer (k + 1))).map
            (fun i => colLen sp.outer (k + 1) + i) := by
      rw [← List.range_add]
      congr 1
      omega
    rw [hsplit, List.countP_append]
    have hz : ((List.range (sp.outer.length - colLen sp.outer (k + 1))).map
        (fun i => colLen sp.outer (k + 1) + i)).countP
        (fun i => decide (sp.innerLen i ≤ k ∧ k + 1 < sp.outer.getD i 0)) = 0 := by
      rw [List.countP_eq_zero]
      intro a ha
      rcases List.mem_map.mp ha with ⟨i, _, rfl⟩
      simp only [decide_eq_true_eq]
      intro hcon
      by_cases hin : colLen sp.outer (k + 1) + i < sp.outer.length
      · have := (colLen_outer_iff sp hdo (k + 1) _ hin).mp hcon.2
        omega
      · rw [List.getD_eq_default _ _ (by omega)] at hcon
        omega
    rw [hz]
    have hcong : (List.range (colLen sp.outer (k + 1))).countP
        (fun i => decide (sp.innerLen i ≤ k ∧ k < sp.outer.getD i 0)) =
        (List.range (colLen sp.outer (k + 1))).countP
          (fun i => decide (sp.innerLen i ≤ k ∧ k + 1 < sp.outer.getD i 0)) := by
      apply List.countP_congr
      intro r hr
      have hrC : r < colLen sp.outer (k + 1) := List.mem_range.mp hr
      have hrn : r < sp.outer.length := lt_of_lt_of_le hrC (colLen_le_length _ _)
      have hout : k + 1 < sp.outer.getD r 0 :=
        (colLen_outer_iff sp hdo (k + 1) r hrn).mpr hrC
      simp only [decide_eq_true_eq]
      omega
    rw [hcong]
    omega
  have hcl : (column_lengths sp).getD k 0 =
      colLen sp.outer k - colLen sp.inner k := column_lengths_getD sp k hk
  refine ⟨?_, ?_, ?_⟩
  · omega
  · omega
  · intro i h1 h2
    have hiA : i < sp.outer.length := by
      have := colLen_le_length sp.outer k
      omega
    have hik : k < sp.outer.getD i 0 := (colLen_outer_iff sp hdo k i hiA).mpr h2
    have hik1 : ¬ (k + 1 < sp.outer.getD i 0) := by
      intro hcon
      have := (colLen_outer_iff sp hdo (k + 1) i hiA).mp hcon
      omega
    omega

/-- The column loop, started at column number `k` with the rows wider
than `k` already slid, finishes all remaining rows. -/
theorem rcCols_spec (sp : SkewPart) (hval : sp.Valid)
    (hne : ∀ r < sp.outer.length, sp.innerLen r < sp.outer.getD r 0) :
    ∀ k, k ≤ sp.outer.headD 0 →
      rcCols (row_lengths sp) (column_lengths sp) k
        (stateOfRows sp (colLen sp.outer k)) =
      Except.ok (stateOfRows sp (colLen sp.outer 0)) := by
  intro k
  induction k with
  | zero =>
    intro _
    rfl
  | succ m ih =>
    intro hk
    have hm : m < sp.outer.headD 0 := by omega
    obtain ⟨h1, h2, h3⟩ := rcCols_step_counts sp hval hne m hm
    unfold rcCols
    rw [if_neg (show ¬ ((column_lengths sp).getD m 0 <
        (stateOfRows sp (colLen sp.outer (m + 1))).current_cs.getD m 0) from by
      show ¬ ((column_lengths sp).getD m 0 <
        (curOfRows sp (colLen sp.outer (m + 1))).getD m 0)
      omega)]
    have hslide := rcSlide_spec sp hval (m + 1)
      ((column_lengths sp).getD m 0 -
        (curOfRows sp (colLen sp.outer (m + 1))).getD m 0)
      (colLen sp.outer (m + 1))
      (by
        have := colLen_le_length sp.outer m
        omega)
      (fun i hi1 hi2 => h3 i hi1 (by omega))
    have hscrut : rcSlide (row_lengths sp) (m + 1)
        ((column_lengths sp).getD m 0 -
          (stateOfRows sp (colLen sp.outer (m + 1))).current_cs.getD m 0)
        (stateOfRows sp (colLen sp.outer (m + 1))) =
        Except.ok (stateOfRows sp (colLen sp.outer (m + 1) +
          ((column_lengths sp).getD m 0 -
            (curOfRows sp (colLen sp.outer (m + 1))).getD m 0))) := hslide
    rw [hscrut]
    show rcCols (row_lengths sp) (column_lengths sp) m
      (stateOfRows sp (colLen sp.outer (m + 1) +
        ((column_lengths sp).getD m 0 -
          (curOfRows sp (colLen sp.outer (m + 1))).getD m 0))) =
      Except.ok (stateOfRows sp (colLen sp.outer 0))
    rw [h2]
    exact ih (by omega)

/-- Leading zeros drop out of a `dropWhile` on zeroness. -/
theorem dropWhile_zero_replicate (m : ℕ) (t : List ℕ) :
    (List.replicate m 0 ++ t).dropWhile (fun x => x = 0) =
      t.dropWhile (fun x => x = 0) := by
  induction m with
  | zero => rfl
  | succ j ih =>
    have hc : (decide ((0 : ℕ) = 0) = true) := by decide
    rw [List.replicate_succ, List.cons_append, List.dropWhile_cons, if_pos hc]
    exact ih

/-- Stripping trailing zeros after zero padding recovers a positive
list. -/
theorem stripZeros_append_replicate (l : List ℕ) (m : ℕ)
    (hpos : ∀ x ∈ l, 0 < x) :
    stripZeros (l ++ List.replicate m 0) = l := by
  unfold stripZeros
  rw [List.reverse_append, List.reverse_replicate, dropWhile_zero_replicate]
  cases hrev : l.reverse with
  | nil =>
    have hl : l = [] := by
      have := congrArg List.reverse hrev
      simpa using this
    subst hl
    rfl
  | cons a t =>
    have ha : a ∈ l := by
      have : a ∈ l.reverse := by rw [hrev]; exact List.mem_cons_self a t
      simpa using this
    have ha2 : ¬ (a = 0) := by
      have := hpos a ha
      omega
    have hc : ¬ (decide (a = 0) = true) := by simpa using ha2
    rw [List.dropWhile_cons, if_neg hc, ← hrev, List.reverse_reverse]

/-- The padded inner row lengths, read over the outer length. -/
theorem map_innerLen_eq_pad (sp : SkewPart)
    (hlen : sp.inner.length ≤ sp.outer.length) :
    (List.range sp.outer.length).map (fun r => sp.innerLen r) =
      sp.inner ++ List.replicate (sp.outer.length - sp.inner.length) 0 := by
  apply eq_of_getD_nat
  · rw [List.length_map, List.length_range, List.length_append,
      List.length_replicate]
    omega
  · intro i
    rw [pad_getD_nat]
    by_cases hi : i < sp.outer.length
    · rw [List.getD_eq_getElem _ _
          (by rw [List.length_map, List.length_range]; exact hi),
        List.getElem_map, List.getElem_range]
      rfl
    · rw [List.getD_eq_default _ _
          (by rw [List.length_map, List.length_range]; omega),
        List.getD_eq_default _ _ (by omega)]

/-- C2: for every valid skew partition whose row-length and
column-length sequences are weakly decreasing and all of whose rows are
nonempty in the skew shape, `row_col_to_skew_partition` applied to its
row lengths and column lengths reconstructs the skew partition
(round-trip law).  The nonemptiness hypothesis cannot be dropped: see
the counterexample with an empty row, where the round trip returns a
different (normalized) skew partition. -/
theorem row_col_round_trip (sp : SkewPart) (hval : sp.Valid)
    (_hrs : is_weakly_decreasing (row_lengths sp))
    (_hcs : is_weakly_decreasing (column_lengths sp))
    (hne : ∀ r < sp.outer.length, sp.innerLen r < sp.outer.getD r 0) :
    row_col_to_skew_partition (row_lengths sp) (column_lengths sp) =
      Except.ok sp := by
  have hdo : is_weakly_decreasing sp.outer := hval.1.1
  have hN0 : colLen sp.outer (sp.outer.headD 0) = 0 := by
    unfold colLen
    rw [List.countP_eq_zero]
    intro x hx
    simp only [decide_eq_true_eq]
    rcases List.getElem_of_mem hx with ⟨i, hi, rfl⟩
    have := getD_le_headD sp.outer hdo i
    rw [List.getD_eq_getElem _ _ hi] at this
    omega
  have hcur0 : curOfRows sp 0 = List.replicate (sp.outer.headD 0) 0 := by
    unfold curOfRows
    apply eq_of_getD_nat
    · rw [List.length_map, List.length_range, List.length_replicate]
    · intro i
      by_cases hi : i < sp.outer.headD 0
      · rw [List.getD_eq_getElem _ _
            (by rw [List.length_map, List.length_range]; exact hi),
          List.getElem_map, List.getElem_range,
          List.getD_eq_getElem _ _ (by rw [List.length_replicate]; exact hi),
          List.getElem_replicate]
        rfl
      · rw [List.getD_eq_default _ _
            (by rw [List.length_map, List.length_range]; omega),
          List.getD_eq_default _ _ (by rw [List.length_replicate]; omega)]
  have hn : colLen sp.outer 0 = sp.outer.length := by
    unfold colLen
    apply List.countP_eq_length.mpr
    intro a ha
    simp only [decide_eq_true_eq]
    exact hval.1.2 a ha
  have hinit : (⟨[], [], List.replicate (column_lengths sp).length 0, 0⟩ :
      RCState) =
      stateOfRows sp (colLen sp.outer ((column_lengths sp).length)) := by
    rw [column_lengths_length, hN0]
    show (⟨[], [], List.replicate (sp.outer.headD 0) 0, 0⟩ : RCState) =
      stateOfRows sp 0
    rw [← hcur0]
    rfl
  have hcols := rcCols_spec sp hval hne (sp.outer.headD 0) (le_refl _)
  unfold row_col_to_skew_partition
  have hscrut : rcCols (row_lengths sp) (column_lengths sp)
      (column_lengths sp).length
      ⟨[], [], List.replicate (column_lengths sp).length 0, 0⟩ =
      Except.ok (stateOfRows sp (colLen sp.outer 0)) := by
    rw [hinit, column_lengths_length]
    exact hcols
  rw [hscrut]
  show mkSkewPartition (stateOfRows sp (colLen sp.outer 0)).outer
    (stateOfRows sp (colLen sp.outer 0)).inner = Except.ok sp
  rw [hn]
  show mkSkewPartition (sp.outer.take sp.outer.length)
    ((List.range sp.outer.length).map (fun r => (sp.innerLen r : ℤ))) =
    Except.ok sp
  rw [List.take_length]
  have hmapToNat : (((List.range sp.outer.length).map
        (fun r => (sp.innerLen r : ℤ))).map Int.toNat) =
      sp.inner ++ List.replicate (sp.outer.length - sp.inner.length) 0 := by
    rw [List.map_map]
    have hmap : (List.range sp.outer.length).map
        (Int.toNat ∘ fun r => (sp.innerLen r : ℤ)) =
        (List.range sp.outer.length).map (fun r => sp.innerLen r) :=
      List.map_congr_left (fun r _ => rfl)
    rw [hmap]
    exact map_innerLen_eq_pad sp hval.2.2.1
  have hstripO : stripZeros sp.outer = sp.outer :=
    stripZeros_of_pos sp.outer hval.1.2
  have hstripI : stripZeros ((((List.range sp.outer.length).map
      (fun r => (sp.innerLen r : ℤ))).map Int.toNat)) = sp.inner := by
    rw [hmapToNat]
    exact stripZeros_append_replicate sp.inner _ hval.2.1.2
  have hZnn : ∀ e ∈ (List.range sp.outer.length).map
      (fun r => (sp.innerLen r : ℤ)), 0 ≤ e := by
    intro e he
    rcases List.mem_map.mp he with ⟨r, _, rfl⟩
    exact Int.natCast_nonneg _
  have hg : ∀ j, j < sp.outer.length →
      ((List.range sp.outer.length).map
        (fun r => (sp.innerLen r : ℤ))).getD j 0 = (sp.innerLen j : ℤ) := by
    intro j hj
    rw [List.getD_eq_getElem _ _
        (by rw [List.length_map, List.length_range]; exact hj),
      List.getElem_map, List.getElem_range]
  have hZwd : is_weakly_decreasing_int ((List.range sp.outer.length).map
      (fun r => (sp.innerLen r : ℤ))) := by
    intro i hi
    rw [List.length_map, List.length_range] at hi
    rw [hg i (by omega), hg (i + 1) (by omega)]
    have := getD_succ_le sp.inner hval.2.1.1 i
    exact_mod_cast this
  have hcond1 : (∀ e ∈ (List.range sp.outer.length).map
        (fun r => (sp.innerLen r : ℤ)), 0 ≤ e) ∧
      is_weakly_decreasing sp.outer ∧
      is_weakly_decreasing_int ((List.range sp.outer.length).map
        (fun r => (sp.innerLen r : ℤ))) := ⟨hZnn, hdo, hZwd⟩
  have hcond2 : (stripZeros ((((List.range sp.outer.length).map
        (fun r => (sp.innerLen r : ℤ))).map Int.toNat))).length ≤
        (stripZeros sp.outer).length ∧
      ∀ r < (stripZeros sp.outer).length,
        (stripZeros ((((List.range sp.outer.length).map
          (fun r => (sp.innerLen r : ℤ))).map Int.toNat))).getD r 0 ≤
        (stripZeros sp.outer).getD r 0 := by
    rw [hstripI, hstripO]
    exact ⟨hval.2.2.1, fun r hr => hval.2.2.2 r hr⟩
  unfold mkSkewPartition
  rw [if_pos hcond1, if_pos hcond2, hstripO, hstripI]

/-- Witness for C2 at the skew partition of the repository's test
suite. -/
theorem row_col_round_trip_witness :
    (SkewPart.mk [6, 5, 3, 2, 2, 1] [2, 2]).Valid ∧
    is_weakly_decreasing (row_lengths (SkewPart.mk [6, 5, 3, 2, 2, 1] [2, 2])) ∧
    is_weakly_decreasing
      (column_lengths (SkewPart.mk [6, 5, 3, 2, 2, 1] [2, 2])) ∧
    (∀ r < (SkewPart.mk [6, 5, 3, 2, 2, 1] [2, 2]).outer.length,
      (SkewPart.mk [6, 5, 3, 2, 2, 1] [2, 2]).innerLen r <
        (SkewPart.mk [6, 5, 3, 2, 2, 1] [2, 2]).outer.getD r 0) ∧
    row_col_to_skew_partition
        (row_lengths (SkewPart.mk [6, 5, 3, 2, 2, 1] [2, 2]))
        (column_lengths (SkewPart.mk [6, 5, 3, 2, 2, 1] [2, 2])) =
      Except.ok (SkewPart.mk [6, 5, 3, 2, 2, 1] [2, 2]) :=
  ⟨by decide, by decide, by decide, by decide,
    row_col_round_trip (SkewPart.mk [6, 5, 3, 2, 2, 1] [2, 2])
      (by decide) (by decide) (by decide) (by decide)⟩

/-- C2 counterexample to the unconditional round-trip claim: the skew
partition `([1], [1])` has an empty row; its row-length and
column-length sequences `[0]` and `[0]` are weakly decreasing, yet the
reconstruction returns the empty skew partition, not the original. -/
theorem row_col_round_trip_cex :
    (SkewPart.mk [1] [1]).Valid ∧
    is_weakly_decreasing (row_lengths (SkewPart.mk [1] [1])) ∧
    is_weakly_decreasing (column_lengths (SkewPart.mk [1] [1])) ∧
    row_col_to_skew_partition (row_lengths (SkewPart.mk [1] [1]))
        (column_lengths (SkewPart.mk [1] [1])) =
      Except.ok (SkewPart.mk [] []) ∧
    SkewPart.mk [] [] ≠ SkewPart.mk [1] [1] :=
  ⟨by decide, by decide, by decide, by rfl, by decide⟩

/-- The fold of `n_to_number_of_linked_partition_self_pairs` counts the
candidates whose evaluation returns normally. -/
theorem foldl_rc_count (l : List (List ℕ)) : ∀ c0 : ℕ,
    l.foldl (fun count p =>
      match row_col_to_skew_partition p p with
      | Except.error _ => count
      | Except.ok _ => count + 1) c0 = c0 + l.countP rcSelfOk := by
  induction l with
  | nil =>
    intro c0
    simp
  | cons a t ih =>
    intro c0
    cases h : row_col_to_skew_partition a a with
    | error e =>
      have hstep : (match row_col_to_skew_partition a a with
          | Except.error _ => c0
          | Except.ok _ => c0 + 1) = c0 := by
        rw [h]
      have hsel : rcSelfOk a = false := by
        unfold rcSelfOk
        rw [h]
      rw [List.foldl_cons, ih, hstep, List.countP_cons, hsel,
        if_neg Bool.false_ne_true]
      omega
    | ok st =>
      have hstep : (match row_col_to_skew_partition a a with
          | Except.error _ => c0
          | Except.ok _ => c0 + 1) = c0 + 1 := by
        rw [h]
      have hsel : rcSelfOk a = true := by
        unfold rcSelfOk
        rw [h]
      rw [List.foldl_cons, ih, hstep, List.countP_cons, hsel,
        if_pos (show true = true from rfl)]
      omega

/-- C9: `n_to_number_of_linked_partition_self_pairs(n)` counts exactly
the partitions `p` of `n` for which `row_col_to_skew_partition(p, p)`
returns normally.  The bare `except:` of the source swallows every
error kind, so a candidate failing with an error other than
`InvalidShapeError` is silently excluded rather than letting the error
propagate as the claim states — see the counterexample. -/
theorem n_to_number_counts_ok (n : ℕ) :
    n_to_number_of_linked_partition_self_pairs n =
      (partitionsOf n).countP rcSelfOk := by
  unfold n_to_number_of_linked_partition_self_pairs
  rw [foldl_rc_count, Nat.zero_add]

/-- C9 counterexample to the propagation clause: for `n = 3`, the
candidate `[3]` makes `row_col_to_skew_partition([3], [3])` fail with an
`IndexError` (not an `InvalidShapeError`); the source swallows it and
returns 2, while the claimed behavior would propagate the error out of
the enumeration. -/
theorem n_to_number_cex :
    row_col_to_skew_partition [3] [3] = Except.error RCErr.other ∧
    [3] ∈ partitionsOf 3 ∧
    n_to_number_of_linked_partition_self_pairs 3 = 2 ∧
    n_to_number_linked_claimed 3 = Except.error RCErr.other :=
  ⟨by rfl, by decide, by decide, by rfl⟩

end MorseCode
